import Mathlib

/-!
Pancake Revenge: a verification development.

A shallow embedding of `pancake_revenge.go` and theorems about it.

Go values are embedded as follows.

* A Go `string` is a sequence of bytes: `GoString := List UInt8`.  `len(s)` is
  `s.length`, `s[i]` is `index s i`.
* A Go `int` is an `Int` (no computation in the program comes near the 64-bit
  limits: every counter is bounded by the length of a string or of a slice).
  Loop counters that start at a non-negative constant and only go up are `Nat`.
* A run-time panic is the `Except.error` branch of `Except GoPanic`.
* A `for` loop is a function that recurses on the number of iterations that
  remain, carrying the loop variables.
* A `([]string, error)` result is a pair of options, `none` being Go's `nil`.
-/

namespace PancakeRevenge

/-! ## Go strings and panics -/

/-- A Go string: a finite sequence of bytes. -/
abbrev GoString := List UInt8

/-- The byte of the character `+`, a pancake facing up. -/
abbrev plus : UInt8 := 43

/-- The byte of the character `-`, a pancake facing down. -/
abbrev minus : UInt8 := 45

/-- The run-time panics the program can raise. -/
inductive GoPanic where
  | indexOutOfRange
  | makesliceCapOutOfRange
  deriving DecidableEq, Repr

deriving instance DecidableEq for Except

/-- The Go expression `s[i]`: a panic unless `0 <= i < len(s)`. -/
def index (s : GoString) (i : Int) : Except GoPanic UInt8 :=
  if i < 0 then .error .indexOutOfRange
  else
    match s[i.toNat]? with
    | some b => .ok b
    | none => .error .indexOutOfRange

/-! ## Constants (lines 10-12) -/

def MAX_NUM_TEST_CASES : Int := 100
def MIN_NUM_TEST_CASES : Int := 1
def MAX_TEST_CASE_SIZE : Nat := 100

/-! ## `flip` (lines 87-98) -/

/-- The loop `for index := 0; index < pancakesToFlip; index++` of `flip`, with
`n` iterations left: each iteration reads `array[index]` and overwrites it. -/
def flipLoop : Nat → Nat → GoString → Except GoPanic GoString
  | 0, _, array => .ok array
  | n + 1, index, array =>
    match array[index]? with
    | none => .error .indexOutOfRange
    | some b => flipLoop n (index + 1) (array.set index (if b = plus then minus else plus))

/-- The function `flip(pancakesToFlip, &pancakes)`: the value returned is the
string stored back through the pointer.  A negative count runs the loop zero
times. -/
def flip (pancakesToFlip : Int) (pancakes : GoString) : Except GoPanic GoString :=
  flipLoop pancakesToFlip.toNat 0 pancakes

/-! ## `cleverSolve` (lines 141-159) -/

/-- The loop `for index := 1; index < len(pancakes); index++` of `cleverSolve`,
with `n` iterations left. -/
def cleverLoop (pancakes : GoString) : Nat → Nat → Int → Except GoPanic Int
  | 0, _, numOfFlips => .ok numOfFlips
  | n + 1, index, numOfFlips =>
    match pancakes[index]?, pancakes[index - 1]? with
    | some a, some b =>
      cleverLoop pancakes n (index + 1) (if a ≠ b then numOfFlips + 1 else numOfFlips)
    | _, _ => .error .indexOutOfRange

/-- The function `cleverSolve(pancakes)`. -/
def cleverSolve (pancakes : GoString) : Except GoPanic Int :=
  match cleverLoop pancakes (pancakes.length - 1) 1 0 with
  | .error p => .error p
  | .ok numOfFlips =>
    match index pancakes ((pancakes.length : Int) - 1) with
    | .error p => .error p
    | .ok b => .ok (if b = minus then numOfFlips + 1 else numOfFlips)

/-! ## `modelSolve` (lines 103-136) -/

/-- The local variables of `modelSolve`. -/
structure ModelState where
  pancakes : GoString
  pancakesToFlip : Nat
  numOfFlips : Int
  loopCount : Nat
  deriving DecidableEq, Repr

/-- The inner loop `for index := pancakesToFlip; index < len(pancakes); index++`
of `modelSolve`, with `n` iterations left; it returns `pancakesToFlip`. -/
def modelInner (pancakes : GoString) : Nat → Nat → Nat → Except GoPanic Nat
  | 0, _, pancakesToFlip => .ok pancakesToFlip
  | n + 1, index, pancakesToFlip =>
    match pancakes[index]?, pancakes[0]? with
    | some a, some b =>
      if a ≠ b then .ok pancakesToFlip
      else modelInner pancakes n (index + 1) (pancakesToFlip + 1)
    | _, _ => .error .indexOutOfRange

/-- The outer loop `for loopCount < MAX_TEST_CASE_SIZE` of `modelSolve`, with
`n` iterations left before the cap; it returns the variables at loop exit. -/
def modelOuter : Nat → ModelState → Except GoPanic ModelState
  | 0, st => .ok st
  | n + 1, st =>
    match modelInner st.pancakes (st.pancakes.length - st.pancakesToFlip)
        st.pancakesToFlip st.pancakesToFlip with
    | .error p => .error p
    | .ok pancakesToFlip =>
      if pancakesToFlip = st.pancakes.length then
        .ok { st with pancakesToFlip := pancakesToFlip, loopCount := st.loopCount + 1 }
      else
        match flip pancakesToFlip st.pancakes with
        | .error p => .error p
        | .ok pancakes =>
          modelOuter n
            { pancakes := pancakes, pancakesToFlip := pancakesToFlip,
              numOfFlips := st.numOfFlips + 1, loopCount := st.loopCount + 1 }

/-- The body of the outer loop of `modelSolve` (lines 112-127), run once: the
variables after it, with `true` when the loop goes on (a flip was made) and
`false` at the `break`. -/
def modelBody (st : ModelState) : Except GoPanic (ModelState × Bool) :=
  match modelInner st.pancakes (st.pancakes.length - st.pancakesToFlip)
      st.pancakesToFlip st.pancakesToFlip with
  | .error p => .error p
  | .ok pancakesToFlip =>
    if pancakesToFlip = st.pancakes.length then
      .ok ({ st with pancakesToFlip := pancakesToFlip, loopCount := st.loopCount + 1 }, false)
    else
      match flip pancakesToFlip st.pancakes with
      | .error p => .error p
      | .ok pancakes =>
        .ok ({ pancakes := pancakes, pancakesToFlip := pancakesToFlip,
               numOfFlips := st.numOfFlips + 1, loopCount := st.loopCount + 1 }, true)

/-- The function `modelSolve(pancakes)`. -/
def modelSolve (pancakes : GoString) : Except GoPanic Int :=
  match modelOuter MAX_TEST_CASE_SIZE
      { pancakes := pancakes, pancakesToFlip := 0, numOfFlips := 0, loopCount := 0 } with
  | .error p => .error p
  | .ok st =>
    match index st.pancakes 0 with
    | .error p => .error p
    | .ok b => .ok (if b = minus then st.numOfFlips + 1 else st.numOfFlips)

/-! ## Text -/

/-- The bytes of a text literal of the source (UTF-8). -/
def ofString (s : String) : GoString := s.toList.flatMap String.utf8EncodeChar

/-- The verb `%d` of `fmt` applied to an `int`: its decimal digits. -/
def formatInt (n : Int) : GoString := ofString (toString n)

/-! ## The characters of a string (`for range` over a string) -/

/-- The rune `U+FFFD` that the Go runtime yields for a byte that starts no
valid UTF-8 sequence. -/
def runeError : Nat := 0xFFFD

/-- A UTF-8 continuation byte, between `locb = 0x80` and `hicb = 0xBF`. -/
def isContinuation (b : UInt8) : Bool := 0x80 ≤ b.toNat && b.toNat ≤ 0xBF

/-- The rune at the head of a string and the number of bytes it spans, as the
Go runtime decodes it in `for _, character := range s`: a byte below `0x80` is
its own rune; a well-formed sequence of 2, 3 or 4 bytes gives its code point;
anything else gives `U+FFFD` and spans one byte. -/
def decodeRune : GoString → Nat × Nat
  | [] => (runeError, 1)
  | b0 :: rest =>
    let c := b0.toNat
    if c < 0x80 then (c, 1)
    else if 0xC0 ≤ c ∧ c < 0xE0 then
      match rest with
      | b1 :: _ =>
        if isContinuation b1 then
          let r := ((c &&& 0x1F) <<< 6) ||| (b1.toNat &&& 0x3F)
          if 0x7F < r then (r, 2) else (runeError, 1)
        else (runeError, 1)
      | _ => (runeError, 1)
    else if 0xE0 ≤ c ∧ c < 0xF0 then
      match rest with
      | b1 :: b2 :: _ =>
        if isContinuation b1 && isContinuation b2 then
          let r := ((c &&& 0x0F) <<< 12) ||| ((b1.toNat &&& 0x3F) <<< 6) ||| (b2.toNat &&& 0x3F)
          if 0x7FF < r ∧ ¬ (0xD800 ≤ r ∧ r ≤ 0xDFFF) then (r, 3) else (runeError, 1)
        else (runeError, 1)
      | _ => (runeError, 1)
    else if 0xF0 ≤ c ∧ c < 0xF8 then
      match rest with
      | b1 :: b2 :: b3 :: _ =>
        if isContinuation b1 && isContinuation b2 && isContinuation b3 then
          let r := ((c &&& 0x07) <<< 18) ||| ((b1.toNat &&& 0x3F) <<< 12)
            ||| ((b2.toNat &&& 0x3F) <<< 6) ||| (b3.toNat &&& 0x3F)
          if 0xFFFF < r ∧ r ≤ 0x10FFFF then (r, 4) else (runeError, 1)
        else (runeError, 1)
      | _ => (runeError, 1)
    else (runeError, 1)

/-! ## `validateTestCases` (lines 50-85) -/

/-- The errors the program builds with `fmt.Errorf`, each with the arguments of
its format string. -/
inductive Error where
  | missingInputFile
  | openFailed (path : GoString)
  | firstLineUnreadable
  | countNotInteger (line : GoString)
  | countOutOfRange (min max provided : Int)
  | countMismatch (expected given : Int)
  | emptyTestCase
  | testCaseTooLong (max length : Int)
  | illegalCharacter (character : Int)
  deriving DecidableEq, Repr

/-- The text of the errors of `validateTestCases`; the verbs `%d` and `%v` both
print an integer (a rune is an `int32`) in decimal. -/
def Error.message : Error → Option GoString
  | .countOutOfRange lo hi provided =>
    some (ofString "File must provide number of test cases between " ++ formatInt lo
      ++ ofString " and " ++ formatInt hi ++ ofString " inclusive. Provided : "
      ++ formatInt provided)
  | .countMismatch expected given =>
    some (ofString "Error: improper number of test cases provided. expected : "
      ++ formatInt expected ++ ofString " given :" ++ formatInt given)
  | .emptyTestCase => some (ofString "Error: empty test case provided")
  | .testCaseTooLong hi length =>
    some (ofString "Test case size should be less then " ++ formatInt hi
      ++ ofString ". Provided test case with length : " ++ formatInt length)
  | .illegalCharacter character =>
    some (ofString "only '+' and '-' allowed. File contains : " ++ formatInt character
      ++ ofString " in test cases")
  | _ => none

/-- The loop `for _, character := range testCase` (lines 76-81), with `n`
iterations left (a rune spans at least one byte, so `len(testCase)` iterations
are enough): the error of the first rune that is neither `+` nor `-`. -/
def checkCharacters : Nat → GoString → Option Error
  | 0, _ => none
  | n + 1, s =>
    match s with
    | [] => none
    | _ :: _ =>
      let character := (decodeRune s).1
      if character ≠ plus.toNat ∧ character ≠ minus.toNat then
        some (.illegalCharacter character)
      else checkCharacters n (s.drop (decodeRune s).2)

/-- The loop `for _, testCase := range testCases` (lines 64-82): the error of
the first `return`, if one is reached. -/
def validateLoop : List GoString → Option Error
  | [] => none
  | testCase :: rest =>
    if testCase = [] then some .emptyTestCase
    else if testCase.length > MAX_TEST_CASE_SIZE then
      some (.testCaseTooLong MAX_TEST_CASE_SIZE testCase.length)
    else
      match checkCharacters testCase.length testCase with
      | some err => some err
      | none => validateLoop rest

/-- The function `validateTestCases(numberOfTestCases, testCases)`; the two
components are the `[]string` and the `error` it returns. -/
def validateTestCases (numberOfTestCases : Int) (testCases : List GoString) :
    Option (List GoString) × Option Error :=
  if numberOfTestCases > MAX_NUM_TEST_CASES ∨ numberOfTestCases < MIN_NUM_TEST_CASES then
    (none, some (.countOutOfRange MIN_NUM_TEST_CASES MAX_NUM_TEST_CASES numberOfTestCases))
  else if (testCases.length : Int) ≠ numberOfTestCases then
    (none, some (.countMismatch numberOfTestCases testCases.length))
  else
    match validateLoop testCases with
    | some err => (none, some err)
    | none => (some testCases, none)

/-! ## The environment of a run -/

/-- A decimal digit. -/
def isDigit (b : UInt8) : Bool := 48 ≤ b.toNat && b.toNat ≤ 57

/-- The value of a run of decimal digits read after the value `acc`. -/
def digitsValue : GoString → Nat → Nat
  | [], acc => acc
  | b :: rest, acc => digitsValue rest (acc * 10 + (b.toNat - 48))

/-- The library function `strconv.Atoi` on a 64-bit target: an optional sign,
then one or more decimal digits, the value within the range of `int`; `none`
stands for a non-nil error. -/
def atoi (s : GoString) : Option Int :=
  let digits :=
    match s with
    | [] => []
    | b :: rest => if b = minus ∨ b = plus then rest else s
  if digits = [] ∨ ¬ digits.all isDigit then none
  else
    let v : Int := digitsValue digits 0
    let n := if s.head? = some minus then -v else v
    if -(2 ^ 63) ≤ n ∧ n < 2 ^ 63 then some n else none

/-- The largest capacity `make([]string, 0, n)` accepts on a 64-bit Linux
target (`maxAlloc` is `2^48` bytes and a string header takes 16); a capacity
that is negative or above it is the panic `makeslice: cap out of range`.
Running out of memory below that bound is not modelled. -/
def maxStringSliceCap : Int := 2 ^ 44

/-- What a run can see and change outside the program. -/
structure World where
  /-- The files `os.Open` opens, each with the lines `bufio.Scanner` yields. -/
  inputs : List (GoString × List GoString)
  /-- The paths on which `os.Create` fails. -/
  uncreatable : List GoString
  /-- The files the program has created, each with the text written to it. -/
  outputs : List (GoString × GoString)
  /-- The errors printed on standard output, each on a line. -/
  stdout : List Error
  deriving DecidableEq

/-! ## `handleUserInput` (lines 20-48) -/

/-- The function `handleUserInput(args)`, reading the files of `w`. -/
def handleUserInput (w : World) (args : List GoString) :
    Except GoPanic (Option (List GoString) × Option Error) :=
  if args.length = 1 then .ok (none, some .missingInputFile)
  else
    match args[1]? with
    | none => .error .indexOutOfRange
    | some path =>
      match w.inputs.lookup path with
      | none => .ok (none, some (.openFailed path))
      | some [] => .ok (none, some .firstLineUnreadable)
      | some (first :: testCases) =>
        match atoi first with
        | none => .ok (none, some (.countNotInteger first))
        | some numberOfTestCases =>
          if numberOfTestCases < 0 ∨ maxStringSliceCap < numberOfTestCases then
            .error .makesliceCapOutOfRange
          else .ok (validateTestCases numberOfTestCases testCases)

/-! ## `solvePancakeRevenge` (lines 161-189) -/

/-- The text `fmt.Sprintf("Case #%d: %d\n", caseNumber, flips)`. -/
def caseLine (caseNumber flips : Int) : GoString :=
  ofString "Case #" ++ formatInt caseNumber ++ ofString ": " ++ formatInt flips ++ ofString "\n"

/-- The loop `for caseNumber, testCase := range testCases` (lines 183-187),
from index `caseNumber` on: `written` is the text written to the file so far. -/
def writeCases : List GoString → Int → GoString → Except GoPanic GoString
  | [], _, written => .ok written
  | testCase :: rest, caseNumber, written =>
    match cleverSolve testCase with
    | .error p => .error p
    | .ok flips => writeCases rest (caseNumber + 1) (written ++ caseLine (caseNumber + 1) flips)

/-- The function `solvePancakeRevenge(args, printError)`, run in the world `w`:
the status returned and the world it leaves. -/
def solvePancakeRevenge (w : World) (args : List GoString) (printError : Bool) :
    Except GoPanic (Int × World) :=
  match handleUserInput w args with
  | .error p => .error p
  | .ok (_, some err) =>
    .ok (1, if printError then { w with stdout := w.stdout ++ [err] } else w)
  | .ok (testCases, none) =>
    match args[1]? with
    | none => .error .indexOutOfRange
    | some path =>
      if path ++ ofString ".out" ∈ w.uncreatable then .ok (1, w)
      else
        match writeCases (testCases.getD []) 0 [] with
        | .error p => .error p
        | .ok text =>
          .ok (0, { w with
            outputs := (path ++ ofString ".out", text)
              :: w.outputs.filter (fun f => f.1 ≠ path ++ ofString ".out") })

/-! ## Specification vocabulary -/

/-- The symbol a flip writes in place of `b` (lines 91-95). -/
def invert (b : UInt8) : UInt8 := if b = plus then minus else plus

/-- The string with its first `k` symbols inverted. -/
def flipList (k : Nat) (s : GoString) : GoString :=
  (s.take k).map invert ++ s.drop k

/-- The number of boundaries of a string: positions whose symbol differs from
the one before. -/
def changes : GoString → Nat
  | a :: b :: l => (if b ≠ a then 1 else 0) + changes (b :: l)
  | _ => 0

/-- Every byte of the string is `+` or `-`. -/
def IsPancakes (s : GoString) : Prop := ∀ b ∈ s, b = plus ∨ b = minus

/-- Every byte of the string is `+`. -/
def AllPlus (s : GoString) : Prop := ∀ b ∈ s, b = plus

instance (s : GoString) : Decidable (IsPancakes s) := by unfold IsPancakes; infer_instance

instance (s : GoString) : Decidable (AllPlus s) := by unfold AllPlus; infer_instance

/-- The flip count as a natural number: the boundaries of the string followed
by a `+`. -/
def flipCount (s : GoString) : Nat := changes (s ++ [plus])

/-- A case the validator accepts: not empty, at most `MAX_TEST_CASE_SIZE` bytes,
only `+` and `-`. -/
def ValidCase (c : GoString) : Prop := c ≠ [] ∧ c.length ≤ 100 ∧ IsPancakes c

instance (c : GoString) : Decidable (ValidCase c) := by unfold ValidCase; infer_instance

/-- The conditions under which a batch is to be rejected: the declared count is
below 1 or above 100, the number of cases differs from it, or some case is
empty, longer than 100 bytes, or has a byte other than `+` and `-`. -/
def Rejected (n : Int) (cases : List GoString) : Prop :=
  n < 1 ∨ n > 100 ∨ (cases.length : Int) ≠ n ∨
    ∃ c ∈ cases, c = [] ∨ c.length > 100 ∨ ¬ IsPancakes c

/-- The text of the output file for the flip counts `counts`, in order: for
the `i`-th count (from 1) the line `Case #i: count`, newline included. -/
def outputText (counts : List Int) : GoString :=
  (counts.enum.map (fun p => caseLine ((p.1 : Int) + 1) p.2)).flatten

/-- A world with one readable file, `in`, holding the given lines, in which no
file has been written yet and every file can be created. -/
def worldWith (lines : List GoString) : World :=
  { inputs := [(ofString "in", lines)], uncreatable := [], outputs := [], stdout := [] }

/-- Every byte of the string is `-`. -/
def AllMinus (s : GoString) : Prop := ∀ b ∈ s, b = minus

instance (s : GoString) : Decidable (AllMinus s) := by unfold AllMinus; infer_instance

/-- All symbols of the string are equal: all `+` or all `-`. -/
def Uniform (s : GoString) : Prop := AllPlus s ∨ AllMinus s

instance (s : GoString) : Decidable (Uniform s) := by unfold Uniform; infer_instance

/-- The number of indices `i` with `1 <= i < len(s)` and `s[i] != s[i-1]`. -/
def boundaryCount (s : GoString) : Nat :=
  (List.range' 1 (s.length - 1)).countP (fun i => decide (s[i]? ≠ s[i - 1]?))

/-- The variables of `modelSolve(s)` before the first iteration. -/
def modelStart (s : GoString) : ModelState :=
  { pancakes := s, pancakesToFlip := 0, numOfFlips := 0, loopCount := 0 }

/-- The states `modelSolve(s)` has at the head of its outer loop: the start, and
the state after each iteration that ends with a flip and begins below the cap. -/
inductive ModelReach (s : GoString) : ModelState → Prop where
  | start : ModelReach s (modelStart s)
  | step (st st' : ModelState) : ModelReach s st → st.loopCount < MAX_TEST_CASE_SIZE →
      modelBody st = .ok (st', true) → ModelReach s st'

/-- The alternating string of `n` symbols that starts with `first`. -/
def alternating (first : UInt8) : Nat → GoString
  | 0 => []
  | n + 1 => first :: alternating (invert first) n

/-- The alternating string of `n` symbols that ends with `last`. -/
def alternatingTo (last : UInt8) : Nat → GoString
  | 0 => []
  | n + 1 => alternatingTo (invert last) n ++ [last]

/-- A run of prefix flips, applied from left to right with `flip`. -/
def applyFlips : List Int → GoString → Except GoPanic GoString
  | [], s => .ok s
  | k :: ks, s =>
    match flip k s with
    | .error p => .error p
    | .ok t => applyFlips ks t

/-! # Theorems -/

/-! ## Lists -/

theorem getElem?_append_cons (pre : GoString) (b : UInt8) (t : GoString) :
    (pre ++ b :: t)[pre.length]? = some b := by
  induction pre <;> simp_all

/-! ## `flip` computes `flipList` -/

theorem flipLoop_append (n : Nat) : ∀ (pre t : GoString), n ≤ t.length →
    flipLoop n pre.length (pre ++ t) = .ok (pre ++ flipList n t) := by
  induction n with
  | zero => intro pre t _; simp [flipLoop, flipList]
  | succ n ih =>
    intro pre t h
    cases t with
    | nil => simp at h
    | cons b t =>
      simp only [List.length_cons, Nat.add_le_add_iff_right] at h
      have := ih (pre ++ [invert b]) t h
      simp only [List.length_append, List.length_singleton, List.append_assoc,
        List.singleton_append] at this
      simp only [flipLoop, getElem?_append_cons]
      simp [flipList, invert] at this ⊢
      exact this

theorem flipLoop_short (n : Nat) : ∀ (pre t : GoString), t.length < n →
    flipLoop n pre.length (pre ++ t) = .error .indexOutOfRange := by
  induction n with
  | zero => intro pre t h; simp at h
  | succ n ih =>
    intro pre t h
    cases t with
    | nil => simp [flipLoop]
    | cons b t =>
      simp only [List.length_cons, Nat.add_lt_add_iff_right] at h
      have := ih (pre ++ [invert b]) t h
      simp only [List.length_append, List.length_singleton, List.append_assoc,
        List.singleton_append] at this
      simp only [flipLoop, getElem?_append_cons]
      simp [invert] at this ⊢
      exact this

theorem flip_eq_ok (k : Nat) (s : GoString) (h : k ≤ s.length) :
    flip (k : Int) s = .ok (flipList k s) := by
  have := flipLoop_append k [] s h
  simpa [flip] using this

theorem flip_eq_error (k : Nat) (s : GoString) (h : s.length < k) :
    flip (k : Int) s = .error .indexOutOfRange := by
  have := flipLoop_short k [] s h
  simpa [flip] using this

theorem flip_nonpos (k : Int) (s : GoString) (h : k ≤ 0) : flip k s = .ok s := by
  have : k.toNat = 0 := by omega
  simp [flip, this, flipLoop]

theorem flip_ok_iff (k : Int) (s t : GoString) :
    flip k s = .ok t ↔ k ≤ s.length ∧ t = flipList k.toNat s := by
  rcases Int.lt_or_le k 0 with hk | hk
  · have h0 : k.toNat = 0 := by omega
    rw [flip_nonpos k s (by omega), h0]
    simp [flipList]
    constructor
    · intro h; exact ⟨by omega, h.symm⟩
    · intro h; exact h.2.symm
  · obtain ⟨n, rfl⟩ := Int.eq_ofNat_of_zero_le hk
    rcases Nat.lt_or_ge s.length n with h | h
    · rw [flip_eq_error n s h]; simp; omega
    · rw [flip_eq_ok n s h]; simp
      constructor
      · intro h'; exact ⟨h, h'.symm⟩
      · intro h'; exact h'.2.symm

@[simp] theorem flipList_zero (s : GoString) : flipList 0 s = s := by simp [flipList]

@[simp] theorem flipList_nil (k : Nat) : flipList k [] = [] := by simp [flipList]

@[simp] theorem flipList_succ_cons (k : Nat) (a : UInt8) (s : GoString) :
    flipList (k + 1) (a :: s) = invert a :: flipList k s := by simp [flipList]

@[simp] theorem length_flipList (k : Nat) (s : GoString) : (flipList k s).length = s.length := by
  induction s generalizing k with
  | nil => simp
  | cons a s ih => cases k <;> simp [ih]

/-! ## `cleverSolve` counts boundaries -/

theorem plus_ne_minus : plus ≠ minus := by decide

theorem minus_ne_plus : minus ≠ plus := by decide

theorem cleverLoop_append (t : GoString) : ∀ (pre : GoString) (a : UInt8) (acc : Int),
    cleverLoop (pre ++ a :: t) t.length (pre.length + 1) acc
      = .ok (acc + (changes (a :: t) : Int)) := by
  induction t with
  | nil => intro pre a acc; simp [cleverLoop, changes]
  | cons b t ih =>
    intro pre a acc
    have h1 : (pre ++ a :: b :: t)[pre.length + 1]? = some b := by
      have := getElem?_append_cons (pre ++ [a]) b t
      simpa using this
    have h2 : (pre ++ a :: b :: t)[pre.length + 1 - 1]? = some a := by
      simpa using getElem?_append_cons pre a (b :: t)
    have h3 := ih (pre ++ [a]) b (if b ≠ a then acc + 1 else acc)
    simp only [List.length_append, List.length_singleton, List.append_assoc,
      List.singleton_append] at h3
    simp only [List.length_cons, cleverLoop, h1, h2, h3, changes]
    split <;> simp
    ring

theorem index_last (pre : GoString) (a : UInt8) :
    index (pre ++ [a]) (((pre ++ [a]).length : Int) - 1) = .ok a := by
  have h : (((pre ++ [a]).length : Int) - 1).toNat = pre.length := by simp
  have h0 : ¬ (((pre ++ [a]).length : Int) - 1 < 0) := by simp
  simp only [index, h0, if_false, h, getElem?_append_cons]

/-- The value `cleverSolve` returns on a non-empty string. -/
theorem cleverSolve_concat (pre : GoString) (a : UInt8) :
    cleverSolve (pre ++ [a])
      = .ok ((changes (pre ++ [a]) : Int) + (if a = minus then 1 else 0)) := by
  have hl : cleverLoop (pre ++ [a]) ((pre ++ [a]).length - 1) 1 0
      = .ok (changes (pre ++ [a]) : Int) := by
    cases pre with
    | nil => simp [cleverLoop, changes]
    | cons c pre =>
      have := cleverLoop_append (pre ++ [a]) [] c 0
      simpa using this
  simp only [cleverSolve, hl, index_last]
  split <;> simp

theorem cleverSolve_nil : cleverSolve [] = .error .indexOutOfRange := by
  rfl

theorem changes_concat (s : GoString) (a x : UInt8) :
    changes (s ++ [a, x]) = changes (s ++ [a]) + (if x ≠ a then 1 else 0) := by
  induction s with
  | nil => simp [changes]
  | cons c s ih =>
    cases s with
    | nil => simp [changes]
    | cons d s =>
      have e : ∀ l : GoString, changes (c :: d :: s ++ l)
          = (if d ≠ c then 1 else 0) + changes (d :: s ++ l) := fun l => by
        simp [changes]
      rw [e, e, ih]; ring

theorem cleverSolve_eq_flipCount (s : GoString) (hne : s ≠ []) (hs : IsPancakes s) :
    cleverSolve s = .ok (flipCount s : Int) := by
  rcases List.eq_nil_or_concat s with h | ⟨pre, a, rfl⟩
  · exact absurd h hne
  · rw [List.concat_eq_append] at hs ⊢
    have ha : a = plus ∨ a = minus := hs a (by simp)
    rw [cleverSolve_concat, flipCount]
    have := changes_concat pre a plus
    simp only [List.append_assoc, List.singleton_append] at this ⊢
    rw [this]
    rcases ha with rfl | rfl <;> simp [plus_ne_minus]
/-! ## One flip moves the boundary count by one -/

theorem invert_ne_invert {a b : UInt8} (ha : a = plus ∨ a = minus) (hb : b = plus ∨ b = minus) :
    invert b ≠ invert a ↔ b ≠ a := by
  rcases ha with rfl | rfl <;> rcases hb with rfl | rfl <;> decide

theorem ne_invert {a b : UInt8} (ha : a = plus ∨ a = minus) (hb : b = plus ∨ b = minus) :
    b ≠ invert a ↔ b = a := by
  rcases ha with rfl | rfl <;> rcases hb with rfl | rfl <;> decide

theorem IsPancakes.tail {a : UInt8} {l : GoString} (h : IsPancakes (a :: l)) : IsPancakes l :=
  fun b hb => h b (List.mem_cons_of_mem _ hb)

theorem IsPancakes.head {a : UInt8} {l : GoString} (h : IsPancakes (a :: l)) :
    a = plus ∨ a = minus := h a (List.mem_cons_self _ _)

theorem changes_cons_cons (a b : UInt8) (l : GoString) :
    changes (a :: b :: l) = (if b ≠ a then 1 else 0) + changes (b :: l) := by
  simp [changes]

/-- Flipping the first `k` symbols, `1 <= k < len`, removes the boundary at
position `k` when there is one and creates one there otherwise; every other
boundary stays. -/
theorem changes_flipList (l : GoString) : ∀ (k : Nat), IsPancakes l → 1 ≤ k → k < l.length →
    (changes (flipList k l) : Int) = changes l + (if l[k - 1]? = l[k]? then 1 else -1) := by
  induction l with
  | nil => intro k _ _ h; simp at h
  | cons a l ih =>
    intro k hl hk hlen
    cases l with
    | nil => simp at hlen; omega
    | cons b l =>
      have ha := hl.head
      have hb := hl.tail.head
      obtain ⟨j, rfl⟩ : ∃ j, k = j + 1 := ⟨k - 1, by omega⟩
      cases j with
      | zero =>
        have e1 : flipList (0 + 1) (a :: b :: l) = invert a :: b :: l := by simp
        rw [e1, changes_cons_cons, changes_cons_cons]
        simp only [Nat.zero_add, Nat.sub_self, List.getElem?_cons_zero, List.getElem?_cons_succ]
        by_cases e : b = a
        · have e2 : b ≠ invert a := (ne_invert ha hb).2 e
          subst e
          simp only [e2, ne_eq, not_true_eq_false, not_false_eq_true, if_true, if_false]
          push_cast; ring
        · have e2 : ¬ b ≠ invert a := fun h => e ((ne_invert ha hb).1 h)
          have e3 : ¬ a = b := fun h => e h.symm
          simp only [e, e2, e3, ne_eq, not_true_eq_false, not_false_eq_true, if_true, if_false,
            Option.some.injEq]
          push_cast; ring
      | succ j =>
        have h := ih (j + 1) hl.tail (by omega) (by simpa using hlen)
        have e1 : flipList (j + 1 + 1) (a :: b :: l) = invert a :: invert b :: flipList j l := by
          simp
        have e2 : flipList (j + 1) (b :: l) = invert b :: flipList j l := by simp
        rw [e1, changes_cons_cons, changes_cons_cons]
        rw [e2] at h
        have e3 : invert b ≠ invert a ↔ b ≠ a := invert_ne_invert ha hb
        simp only [Nat.add_sub_cancel, List.getElem?_cons_succ] at h ⊢
        push_cast
        simp only [h, e3]; ring

theorem flipList_append_of_le (k : Nat) (s t : GoString) (h : k ≤ s.length) :
    flipList k (s ++ t) = flipList k s ++ t := by
  induction s generalizing k with
  | nil => simp at h; subst h; simp
  | cons a s ih =>
    cases k with
    | zero => simp
    | succ k => simp at h; simp [ih k h]

theorem IsPancakes.append_plus {s : GoString} (h : IsPancakes s) : IsPancakes (s ++ [plus]) := by
  intro b hb
  rcases List.mem_append.1 hb with hb | hb
  · exact h b hb
  · left; simpa using hb

theorem invert_isPancake (b : UInt8) : invert b = plus ∨ invert b = minus := by
  unfold invert; split <;> simp

theorem IsPancakes.flipList {s : GoString} (h : IsPancakes s) (k : Nat) :
    IsPancakes (flipList k s) := by
  intro b hb
  rcases List.mem_append.1 hb with hb | hb
  · obtain ⟨c, _, rfl⟩ := List.mem_map.1 hb
    exact invert_isPancake c
  · exact h b (List.mem_of_mem_drop hb)

/-- A flip lowers the flip count by at most one. -/
theorem flipCount_flipList_ge (s : GoString) (hs : IsPancakes s) (k : Nat) (hk : k ≤ s.length) :
    flipCount s ≤ flipCount (flipList k s) + 1 := by
  rcases Nat.eq_zero_or_pos k with rfl | hpos
  · simp
  · have h := changes_flipList (s ++ [plus]) k hs.append_plus hpos (by simp; omega)
    rw [flipList_append_of_le k s [plus] hk] at h
    unfold flipCount
    split at h <;> omega

/-- A flip at a boundary lowers the flip count by exactly one. -/
theorem flipCount_flipList_boundary (s : GoString) (hs : IsPancakes s) (k : Nat) (hk : k ≤ s.length)
    (hpos : 1 ≤ k) (hb : (s ++ [plus])[k - 1]? ≠ (s ++ [plus])[k]?) :
    flipCount (flipList k s) + 1 = flipCount s := by
  have h := changes_flipList (s ++ [plus]) k hs.append_plus hpos (by simp; omega)
  rw [flipList_append_of_le k s [plus] hk, if_neg hb] at h
  unfold flipCount
  omega

theorem exists_boundary (l : GoString) (h : 0 < changes l) :
    ∃ k, 1 ≤ k ∧ k < l.length ∧ l[k - 1]? ≠ l[k]? := by
  induction l with
  | nil => simp [changes] at h
  | cons a l ih =>
    cases l with
    | nil => simp [changes] at h
    | cons b l =>
      by_cases e : b = a
      · simp only [changes, e, ne_eq, not_true_eq_false, if_false, Nat.zero_add] at h
        subst e
        obtain ⟨k, h1, h2, h3⟩ := ih h
        refine ⟨k + 1, by omega, by simpa using h2, ?_⟩
        obtain ⟨j, rfl⟩ : ∃ j, k = j + 1 := ⟨k - 1, by omega⟩
        simpa using h3
      · refine ⟨1, le_refl _, by simp, ?_⟩
        simp only [Nat.sub_self, List.getElem?_cons_zero, List.getElem?_cons_succ]
        intro h'; exact e (Option.some.inj h').symm

theorem changes_append_eq_zero (s : GoString) (x : UInt8) (h : changes (s ++ [x]) = 0) :
    ∀ b ∈ s, b = x := by
  induction s with
  | nil => simp
  | cons a s ih =>
    cases s with
    | nil =>
      simp [changes] at h
      simpa using h.symm
    | cons c s =>
      simp only [List.cons_append, changes, Nat.add_eq_zero, ite_eq_right_iff, one_ne_zero,
        imp_false, not_not] at h
      have h2 := ih h.2
      intro b hb
      rcases List.mem_cons.1 hb with rfl | hb
      · rw [← h.1]; exact h2 c (List.mem_cons_self _ _)
      · exact h2 b hb

theorem changes_of_all_eq (s : GoString) (x : UInt8) (h : ∀ b ∈ s, b = x) :
    changes (s ++ [x]) = 0 := by
  induction s with
  | nil => simp [changes]
  | cons a s ih =>
    have ha : a = x := h a (List.mem_cons_self _ _)
    have hs : ∀ b ∈ s, b = x := fun b hb => h b (List.mem_cons_of_mem _ hb)
    subst ha
    cases s with
    | nil => simp [changes]
    | cons c s =>
      have hc : c = a := hs c (List.mem_cons_self _ _)
      have := ih hs
      simp only [List.cons_append, changes] at this ⊢
      simp [hc, this]
      simpa [hc] using this

theorem flipCount_eq_zero_iff (s : GoString) : flipCount s = 0 ↔ AllPlus s :=
  ⟨changes_append_eq_zero s plus, changes_of_all_eq s plus⟩

/-! ## Runs of flips -/

theorem applyFlips_lower (ks : List Int) : ∀ (s t : GoString), IsPancakes s →
    applyFlips ks s = .ok t → flipCount s ≤ flipCount t + ks.length := by
  induction ks with
  | nil =>
    intro s t _ h
    simp only [applyFlips, Except.ok.injEq] at h
    subst h; simp
  | cons k ks ih =>
    intro s t hs h
    simp only [applyFlips] at h
    cases hf : flip k s with
    | error p => simp [hf] at h
    | ok u =>
      simp only [hf] at h
      obtain ⟨hk, rfl⟩ := (flip_ok_iff k s u).1 hf
      have h1 := ih _ t (hs.flipList k.toNat) h
      have h2 := flipCount_flipList_ge s hs k.toNat (by omega)
      simp only [List.length_cons]
      omega

theorem applyFlips_upper (n : Nat) : ∀ (s : GoString), IsPancakes s → flipCount s = n →
    ∃ ks : List Int, ks.length = n ∧ (∀ k ∈ ks, 0 ≤ k ∧ k ≤ (s.length : Int)) ∧
      ∃ t, applyFlips ks s = .ok t ∧ AllPlus t := by
  induction n with
  | zero =>
    intro s _ h
    exact ⟨[], rfl, by simp, s, rfl, (flipCount_eq_zero_iff s).1 h⟩
  | succ n ih =>
    intro s hs h
    obtain ⟨k, hk1, hk2, hk3⟩ := exists_boundary (s ++ [plus]) (by unfold flipCount at h; omega)
    have hk : k ≤ s.length := by simp at hk2; omega
    have hc := flipCount_flipList_boundary s hs k hk hk1 hk3
    obtain ⟨ks, hlen, hrange, t, hrun, ht⟩ := ih (flipList k s) (hs.flipList k) (by omega)
    refine ⟨(k : Int) :: ks, by simp [hlen], ?_, t, ?_, ht⟩
    · intro j hj
      rcases List.mem_cons.1 hj with rfl | hj
      · exact ⟨by omega, by omega⟩
      · simpa using hrange j hj
    · simp only [applyFlips, flip_eq_ok k s hk, hrun]

/-- C1: on a non-empty string of `+` and `-`, `cleverSolve` returns the minimum
number of prefix flips that make every symbol `+`: some run of exactly that
many flips `flip(k, .)`, each with `0 <= k <= len(s)`, ends in an all-`+`
string, and no run of flips that ends in an all-`+` string is shorter. -/
theorem cleverSolve_minimum (s : GoString) (hne : s ≠ []) (hs : IsPancakes s) :
    ∃ n : Nat, cleverSolve s = .ok (n : Int) ∧
      (∃ ks : List Int, ks.length = n ∧ (∀ k ∈ ks, 0 ≤ k ∧ k ≤ (s.length : Int)) ∧
        ∃ t, applyFlips ks s = .ok t ∧ AllPlus t) ∧
      (∀ (ks : List Int) (t : GoString), applyFlips ks s = .ok t → AllPlus t →
        n ≤ ks.length) := by
  refine ⟨flipCount s, cleverSolve_eq_flipCount s hne hs, applyFlips_upper _ s hs rfl, ?_⟩
  intro ks t hrun ht
  have h := applyFlips_lower ks s t hs hrun
  have h0 := (flipCount_eq_zero_iff t).2 ht
  omega

theorem cleverSolve_minimum_witness :
    ∃ n : Nat, cleverSolve [minus, minus, minus, plus, plus, minus] = .ok (n : Int) ∧
      (∃ ks : List Int, ks.length = n ∧
        (∀ k ∈ ks, 0 ≤ k ∧ k ≤ (([minus, minus, minus, plus, plus, minus] : GoString).length : Int)) ∧
        ∃ t, applyFlips ks [minus, minus, minus, plus, plus, minus] = .ok t ∧ AllPlus t) ∧
      (∀ (ks : List Int) (t : GoString),
        applyFlips ks [minus, minus, minus, plus, plus, minus] = .ok t → AllPlus t →
        n ≤ ks.length) :=
  cleverSolve_minimum [minus, minus, minus, plus, plus, minus] (by decide) (by decide)

/-! ## `modelSolve` follows the boundaries -/

theorem modelInner_run (s : GoString) (c : UInt8) (h0 : s[0]? = some c) (t : GoString)
    (ht : t = [] ∨ ∃ d u, t = d :: u ∧ d ≠ c) :
    ∀ (a : Nat) (pre : GoString) (q : Nat), s = pre ++ (List.replicate a c ++ t) →
      modelInner s (a + t.length) pre.length q = .ok (q + a) := by
  intro a
  induction a with
  | zero =>
    intro pre q hs
    rcases ht with rfl | ⟨d, u, rfl, hd⟩
    · simp [modelInner]
    · have h1 : s[pre.length]? = some d := by
        rw [hs]; simpa using getElem?_append_cons pre d u
      simp [modelInner, h1, h0, hd]
  | succ a ih =>
    intro pre q hs
    have h1 : s[pre.length]? = some c := by
      rw [hs, List.replicate_succ]; simpa using getElem?_append_cons pre c _
    have h2 := ih (pre ++ [c]) (q + 1) (by rw [hs, List.replicate_succ]; simp)
    have e : a + 1 + t.length = (a + t.length) + 1 := by omega
    rw [e]
    simp only [modelInner, h1, h0, ne_eq, not_true_eq_false, if_false]
    simp only [List.length_append, List.length_singleton] at h2
    rw [h2]; congr 1; omega

theorem exists_run (c : UInt8) (t : GoString) :
    ∃ (a : Nat) (u : GoString), t = List.replicate a c ++ u ∧
      (u = [] ∨ ∃ d v, u = d :: v ∧ d ≠ c) := by
  induction t with
  | nil => exact ⟨0, [], rfl, Or.inl rfl⟩
  | cons b t ih =>
    by_cases e : b = c
    · obtain ⟨a, u, h1, h2⟩ := ih
      exact ⟨a + 1, u, by rw [h1, e, List.replicate_succ]; rfl, h2⟩
    · exact ⟨0, b :: t, rfl, Or.inr ⟨b, t, rfl, e⟩⟩

theorem changes_run (c : UInt8) (a : Nat) (u : GoString) :
    changes (c :: (List.replicate a c ++ u)) = changes (c :: u) := by
  induction a with
  | zero => rfl
  | succ a ih =>
    rw [List.replicate_succ, List.cons_append, changes_cons_cons, ih]
    simp

theorem getLast?_run (c : UInt8) (a : Nat) :
    (c :: List.replicate a c).getLast? = some c := by
  induction a with
  | zero => rfl
  | succ a ih => rw [List.replicate_succ, List.getLast?_cons_cons, ih]

theorem getLast?_run_cons (c d : UInt8) (a : Nat) (v : GoString) :
    (c :: (List.replicate a c ++ d :: v)).getLast? = (d :: v).getLast? := by
  induction a with
  | zero => simp [List.getLast?_cons_cons]
  | succ a ih =>
    rw [List.replicate_succ, List.cons_append, List.getLast?_cons_cons, ih]

theorem flipList_run (n : Nat) (c : UInt8) (u : GoString) :
    flipList n (List.replicate n c ++ u) = List.replicate n (invert c) ++ u := by
  induction n with
  | zero => simp
  | succ n ih => simp [List.replicate_succ, ih]

theorem invert_of_ne {c d : UInt8} (hc : c = plus ∨ c = minus) (hd : d = plus ∨ d = minus)
    (h : d ≠ c) : invert c = d := by
  rcases hc with rfl | rfl <;> rcases hd with rfl | rfl <;> first | rfl | exact absurd rfl h

/-- The outer loop of `modelSolve`, started on a uniform prefix of `p` symbols
`c` followed by `c :: t`, with at least as many iterations left as `c :: t` has
boundaries: it ends on a uniform string of the last symbol, after one flip per
boundary. -/
theorem modelOuter_run (n : Nat) : ∀ (p : Nat) (c : UInt8) (t : GoString) (f : Int) (lc : Nat),
    IsPancakes (c :: t) → changes (c :: t) ≤ n →
    ∃ st x, modelOuter n ⟨List.replicate p c ++ c :: t, p, f, lc⟩ = .ok st ∧
      (c :: t).getLast? = some x ∧
      st.pancakes = List.replicate (p + 1 + t.length) x ∧
      st.numOfFlips = f + (changes (c :: t) : Int) := by
  induction n with
  | zero =>
    intro p c t f lc _ hn
    obtain ⟨a, u, rfl, hu⟩ := exists_run c t
    rw [changes_run] at hn
    rcases hu with rfl | ⟨d, v, rfl, hd⟩
    · have hc : changes (c :: List.replicate a c) = 0 := by
        simpa [changes] using changes_run c a []
      refine ⟨_, c, rfl, by simpa using getLast?_run c a, ?_, by simp [hc]⟩
      simp only [List.append_nil, List.length_replicate]
      rw [← List.replicate_succ, ← List.replicate_add]
      congr 1; omega
    · simp [changes_cons_cons, hd] at hn
  | succ n ih =>
    intro p c t f lc hp hn
    obtain ⟨a, u, rfl, hu⟩ := exists_run c t
    rw [changes_run] at hn ⊢
    have hs0 : (List.replicate p c ++ c :: (List.replicate a c ++ u))[0]? = some c := by
      cases p <;> simp [List.replicate_succ]
    have hlen : (List.replicate p c ++ c :: (List.replicate a c ++ u)).length - p
        = (a + 1) + u.length := by
      simp; omega
    have hin := modelInner_run _ c hs0 u hu (a + 1) (List.replicate p c) p
      (by simp [List.replicate_succ])
    simp only [List.length_replicate] at hin
    simp only [modelOuter, hlen, hin]
    rcases hu with rfl | ⟨d, v, rfl, hd⟩
    · have e : p + (a + 1) = (List.replicate p c ++ c :: (List.replicate a c ++ [])).length := by
        simp
      rw [if_pos e]
      refine ⟨_, c, rfl, by simpa using getLast?_run c a, ?_, by simp [changes]⟩
      simp only [List.append_nil, List.length_replicate]
      rw [← List.replicate_succ, ← List.replicate_add]
      congr 1; omega
    · have e : ¬ p + (a + 1)
          = (List.replicate p c ++ c :: (List.replicate a c ++ d :: v)).length := by
        simp
      rw [if_neg e]
      have hd' : d = plus ∨ d = minus := hp d (by simp)
      have hfl : flip ((p + (a + 1) : Nat) : Int)
          (List.replicate p c ++ c :: (List.replicate a c ++ d :: v))
          = .ok (List.replicate (p + (a + 1)) d ++ d :: v) := by
        rw [flip_eq_ok _ _ (by simp)]
        have : List.replicate p c ++ c :: (List.replicate a c ++ d :: v)
            = List.replicate (p + (a + 1)) c ++ d :: v := by
          simp [List.replicate_add, List.replicate_succ]
        rw [this, flipList_run, invert_of_ne hp.head hd' hd]
      simp only [hfl]
      have hpv : IsPancakes (d :: v) := fun b hb => hp b (by
        rcases List.mem_cons.1 hb with rfl | hb <;> simp [*])
      have hn' : changes (d :: v) ≤ n := by
        simp [changes_cons_cons, hd] at hn; omega
      obtain ⟨st, x, h1, h2, h3, h4⟩ := ih (p + (a + 1)) d v (f + 1) (lc + 1) hpv hn'
      refine ⟨st, x, h1, by rw [getLast?_run_cons]; exact h2, ?_, ?_⟩
      · rw [h3]; congr 1; simp; omega
      · rw [h4]; simp [changes_cons_cons, hd]; ring

theorem changes_le (a : UInt8) (l : GoString) : changes (a :: l) ≤ l.length := by
  induction l generalizing a with
  | nil => simp [changes]
  | cons b l ih =>
    rw [changes_cons_cons]
    have := ih b
    simp only [List.length_cons]
    split <;> omega

theorem index_zero_replicate (n : Nat) (x : UInt8) :
    index (List.replicate (n + 1) x) 0 = .ok x := by
  simp [index, List.replicate_succ]

theorem modelSolve_value (s : GoString) (hs : IsPancakes s) (hne : s ≠ [])
    (hlen : s.length ≤ MAX_TEST_CASE_SIZE + 1) :
    modelSolve s = .ok (flipCount s : Int) := by
  rcases List.eq_nil_or_concat s with h | ⟨pre, a, hsa⟩
  · exact absurd h hne
  · rw [List.concat_eq_append] at hsa
    rw [← cleverSolve_eq_flipCount s hne hs]
    cases s with
    | nil => exact absurd rfl hne
    | cons c t =>
      have hch : changes (c :: t) ≤ MAX_TEST_CASE_SIZE := by
        have := changes_le c t
        simp only [List.length_cons] at hlen
        omega
      obtain ⟨st, x, h1, h2, h3, h4⟩ := modelOuter_run MAX_TEST_CASE_SIZE 0 c t 0 0 hs hch
      have hx : x = a := by
        rw [hsa] at h2
        simpa using h2.symm
      subst hx
      simp only [List.replicate_zero, List.nil_append] at h1
      have hidx : index st.pancakes 0 = .ok x := by
        rw [h3, Nat.add_comm, ← Nat.add_assoc]; exact index_zero_replicate _ x
      simp only [modelSolve, h1, hidx, h4, zero_add]
      rw [hsa, cleverSolve_concat, ← hsa]
      split <;> simp

/-- C2: on every string of `+` and `-` of length 1 to 100, `modelSolve` and
`cleverSolve` return the same number (and neither panics). -/
theorem modelSolve_eq_cleverSolve (s : GoString) (hs : IsPancakes s)
    (h1 : 1 ≤ s.length) (h100 : s.length ≤ 100) :
    modelSolve s = cleverSolve s ∧ ∃ n : Int, cleverSolve s = .ok n := by
  have hne : s ≠ [] := by intro h; simp [h] at h1
  have hm := modelSolve_value s hs hne (by simp only [MAX_TEST_CASE_SIZE]; omega)
  have hc := cleverSolve_eq_flipCount s hne hs
  exact ⟨by rw [hm, hc], _, hc⟩

theorem modelSolve_eq_cleverSolve_witness :
    modelSolve [minus, minus, minus, plus, plus, minus]
        = cleverSolve [minus, minus, minus, plus, plus, minus] ∧
      ∃ n : Int, cleverSolve [minus, minus, minus, plus, plus, minus] = .ok n :=
  modelSolve_eq_cleverSolve [minus, minus, minus, plus, plus, minus] (by decide) (by decide)
    (by decide)

/-- C3: on every string of `+` and `-` of length 1 to 100, `cleverSolve`
returns a number that is at least 0, and that is 0 exactly when every symbol
is `+`. -/
theorem cleverSolve_nonneg_zero_iff (s : GoString) (hs : IsPancakes s)
    (h1 : 1 ≤ s.length) (_h100 : s.length ≤ 100) :
    ∃ n : Int, cleverSolve s = .ok n ∧ 0 ≤ n ∧ (n = 0 ↔ AllPlus s) := by
  have hne : s ≠ [] := by intro h; simp [h] at h1
  refine ⟨flipCount s, cleverSolve_eq_flipCount s hne hs, by omega, ?_⟩
  rw [← flipCount_eq_zero_iff]
  omega

theorem cleverSolve_nonneg_zero_iff_witness :
    ∃ n : Int, cleverSolve [plus, plus, plus] = .ok n ∧ 0 ≤ n ∧
      (n = 0 ↔ AllPlus [plus, plus, plus]) :=
  cleverSolve_nonneg_zero_iff [plus, plus, plus] (by decide) (by decide) (by decide)

/-! ## `validateTestCases` -/

theorem decodeRune_pancake (b : UInt8) (rest : GoString) (hb : b = plus ∨ b = minus) :
    decodeRune (b :: rest) = (b.toNat, 1) := by
  rcases hb with rfl | rfl <;> rfl

/-- The rune decoded at a byte other than `+` and `-` is neither `+` nor `-`. -/
theorem decodeRune_other (b : UInt8) (rest : GoString) (h1 : b ≠ plus) (h2 : b ≠ minus) :
    (decodeRune (b :: rest)).1 ≠ plus.toNat ∧ (decodeRune (b :: rest)).1 ≠ minus.toNat := by
  have e1 : b.toNat ≠ 43 := fun h => h1 (UInt8.toNat.inj h)
  have e2 : b.toNat ≠ 45 := fun h => h2 (UInt8.toNat.inj h)
  have p1 : plus.toNat = 43 := rfl
  have p2 : minus.toNat = 45 := rfl
  rw [p1, p2]
  unfold decodeRune
  simp only [runeError]
  repeat' split
  all_goals first
    | exact ⟨e1, e2⟩
    | exact ⟨by decide, by decide⟩
    | (constructor <;> dsimp only <;> omega)

theorem checkCharacters_pancakes (n : Nat) : ∀ s : GoString, IsPancakes s →
    checkCharacters n s = none := by
  induction n with
  | zero => intro s _; rfl
  | succ n ih =>
    intro s hs
    cases s with
    | nil => rfl
    | cons b s =>
      have hb := hs.head
      simp only [checkCharacters, decodeRune_pancake b s hb, List.drop_succ_cons, List.drop_zero]
      rw [ih s hs.tail]
      rcases hb with rfl | rfl <;> simp

theorem checkCharacters_first (pre : GoString) : ∀ (n : Nat) (b : UInt8) (rest : GoString),
    IsPancakes pre → b ≠ plus → b ≠ minus → pre.length < n →
    checkCharacters n (pre ++ b :: rest)
      = some (.illegalCharacter (decodeRune (b :: rest)).1) := by
  induction pre with
  | nil =>
    intro n b rest _ h1 h2 hn
    obtain ⟨m, rfl⟩ : ∃ m, n = m + 1 := ⟨n - 1, by simp at hn; omega⟩
    have := decodeRune_other b rest h1 h2
    simp only [List.nil_append, checkCharacters, ne_eq, this, not_false_eq_true, and_self,
      if_true]
  | cons a pre ih =>
    intro n b rest hp h1 h2 hn
    obtain ⟨m, rfl⟩ : ∃ m, n = m + 1 := ⟨n - 1, by simp at hn; omega⟩
    have ha := hp.head
    have := ih m b rest hp.tail h1 h2 (by simpa using hn)
    simp only [List.cons_append, checkCharacters, decodeRune_pancake a _ ha, List.drop_succ_cons,
      List.drop_zero, this]
    rcases ha with rfl | rfl <;> simp

theorem exists_first_other (s : GoString) (h : ¬ IsPancakes s) :
    ∃ (pre : GoString) (b : UInt8) (rest : GoString), s = pre ++ b :: rest ∧ IsPancakes pre ∧
      b ≠ plus ∧ b ≠ minus := by
  induction s with
  | nil => exact absurd (fun b hb => by simp at hb) h
  | cons a s ih =>
    by_cases ha : a = plus ∨ a = minus
    · have hs : ¬ IsPancakes s := by
        intro hs; apply h
        intro b hb
        rcases List.mem_cons.1 hb with rfl | hb
        · exact ha
        · exact hs b hb
      obtain ⟨pre, b, rest, rfl, hp, h1, h2⟩ := ih hs
      refine ⟨a :: pre, b, rest, rfl, ?_, h1, h2⟩
      intro c hc
      rcases List.mem_cons.1 hc with rfl | hc
      · exact ha
      · exact hp c hc
    · exact ⟨[], a, s, rfl, fun b hb => by simp at hb, fun e => ha (Or.inl e),
        fun e => ha (Or.inr e)⟩

theorem checkCharacters_eq_none_iff (s : GoString) :
    checkCharacters s.length s = none ↔ IsPancakes s := by
  constructor
  · intro h
    by_contra hs
    obtain ⟨pre, b, rest, rfl, hp, h1, h2⟩ := exists_first_other s hs
    rw [checkCharacters_first pre _ b rest hp h1 h2 (by simp)] at h
    exact Option.noConfusion h
  · exact checkCharacters_pancakes _ s

theorem validateLoop_eq_none_iff (cases : List GoString) :
    validateLoop cases = none ↔ ∀ c ∈ cases, ValidCase c := by
  induction cases with
  | nil => simp [validateLoop]
  | cons c cases ih =>
    simp only [validateLoop, MAX_TEST_CASE_SIZE, List.mem_cons, forall_eq_or_imp]
    by_cases h1 : c = []
    · simp [h1, ValidCase]
    · by_cases h2 : c.length > 100
      · simp [h1, h2, ValidCase]
      · simp only [h1, h2, if_false]
        cases hc : checkCharacters c.length c with
        | some e =>
          have : ¬ IsPancakes c := by
            rw [← checkCharacters_eq_none_iff, hc]; simp
          simp [this, ValidCase]
        | none =>
          have : IsPancakes c := (checkCharacters_eq_none_iff c).1 hc
          simp only [ih]
          constructor
          · intro h; exact ⟨⟨h1, by omega, this⟩, h⟩
          · intro h; exact h.2

theorem rejected_iff (n : Int) (cases : List GoString) :
    ¬ Rejected n cases ↔ (1 ≤ n ∧ n ≤ 100) ∧ (cases.length : Int) = n ∧
      ∀ c ∈ cases, ValidCase c := by
  unfold Rejected ValidCase
  constructor
  · intro h
    refine ⟨⟨by omega, by omega⟩, by_contra fun h' => h (by tauto), ?_⟩
    intro c hc
    refine ⟨fun e => h ?_, by_contra fun h' => h ?_, by_contra fun h' => h ?_⟩
    · exact Or.inr (Or.inr (Or.inr ⟨c, hc, Or.inl e⟩))
    · exact Or.inr (Or.inr (Or.inr ⟨c, hc, Or.inr (Or.inl (by omega))⟩))
    · exact Or.inr (Or.inr (Or.inr ⟨c, hc, Or.inr (Or.inr h')⟩))
  · rintro ⟨⟨h1, h2⟩, h3, h4⟩ (h | h | h | ⟨c, hc, h⟩)
    · omega
    · omega
    · exact h h3
    · obtain ⟨a1, a2, a3⟩ := h4 c hc
      rcases h with h | h | h
      · exact a1 h
      · omega
      · exact h a3

theorem validateTestCases_of_valid (n : Int) (cases : List GoString)
    (h : ¬ Rejected n cases) : validateTestCases n cases = (some cases, none) := by
  obtain ⟨⟨h1, h2⟩, h3, h4⟩ := (rejected_iff n cases).1 h
  have hl := (validateLoop_eq_none_iff cases).2 h4
  have hr : ¬ (n > MAX_NUM_TEST_CASES ∨ n < MIN_NUM_TEST_CASES) := by
    simp only [MAX_NUM_TEST_CASES, MIN_NUM_TEST_CASES]; omega
  simp only [validateTestCases, hr, if_false, h3, ne_eq, not_true_eq_false, hl]

theorem validateTestCases_of_rejected (n : Int) (cases : List GoString)
    (h : Rejected n cases) : ∃ err, validateTestCases n cases = (none, some err) := by
  unfold validateTestCases
  split
  · exact ⟨_, rfl⟩
  · rename_i hr
    split
    · exact ⟨_, rfl⟩
    · rename_i hlen
      cases hl : validateLoop cases with
      | some e => exact ⟨e, rfl⟩
      | none =>
        exfalso
        have h4 := (validateLoop_eq_none_iff cases).1 hl
        simp only [MAX_NUM_TEST_CASES, MIN_NUM_TEST_CASES] at hr
        exact (rejected_iff n cases).2 ⟨⟨by omega, by omega⟩, by simpa using hlen, h4⟩ h

theorem validateLoop_cons_valid (g : GoString) (l : List GoString) (hg : ValidCase g) :
    validateLoop (g :: l) = validateLoop l := by
  obtain ⟨h1, h2, h3⟩ := hg
  have h2' : ¬ g.length > MAX_TEST_CASE_SIZE := by simp only [MAX_TEST_CASE_SIZE]; omega
  simp only [validateLoop, h1, h2', if_false, checkCharacters_pancakes _ g h3]

theorem validateLoop_append (good l : List GoString) (hg : ∀ g ∈ good, ValidCase g) :
    validateLoop (good ++ l) = validateLoop l := by
  induction good with
  | nil => rfl
  | cons g good ih =>
    rw [List.cons_append, validateLoop_cons_valid g _ (hg g (List.mem_cons_self _ _))]
    exact ih (fun x hx => hg x (List.mem_cons_of_mem _ hx))

theorem validateTestCases_in_range (n : Int) (cases : List GoString) (h1 : 1 ≤ n) (h100 : n ≤ 100)
    (hlen : (cases.length : Int) = n) (e : Error) (hl : validateLoop cases = some e) :
    validateTestCases n cases = (none, some e) := by
  have hr : ¬ (n > MAX_NUM_TEST_CASES ∨ n < MIN_NUM_TEST_CASES) := by
    simp only [MAX_NUM_TEST_CASES, MIN_NUM_TEST_CASES]; omega
  simp only [validateTestCases, hr, if_false, hlen, ne_eq, not_true_eq_false, hl]

/-- C4: when the declared count `n` is between 1 and 100, there are exactly `n`
cases, and every case is non-empty, at most 100 bytes long (100 included) and
made of `+` and `-` only, `validateTestCases` returns the very list it was
given and no error. -/
theorem validateTestCases_accepts (n : Int) (cases : List GoString)
    (h1 : 1 ≤ n) (h100 : n ≤ 100) (hlen : (cases.length : Int) = n)
    (hc : ∀ c ∈ cases, c ≠ [] ∧ c.length ≤ 100 ∧ IsPancakes c) :
    validateTestCases n cases = (some cases, none) :=
  validateTestCases_of_valid n cases ((rejected_iff n cases).2 ⟨⟨h1, h100⟩, hlen, hc⟩)

theorem validateTestCases_accepts_witness :
    validateTestCases 2 [[plus, plus, plus, plus, plus, minus], List.replicate 100 minus]
      = (some [[plus, plus, plus, plus, plus, minus], List.replicate 100 minus], none) :=
  validateTestCases_accepts 2 [[plus, plus, plus, plus, plus, minus], List.replicate 100 minus]
    (by decide) (by decide) (by decide) (by decide)

/-- C5: `validateTestCases` fails, with a nil list and a non-nil error, exactly
when the batch is to be rejected (count below 1 or above 100, number of cases
different from the count, a case that is empty, longer than 100 bytes, or with
a byte other than `+` and `-`); otherwise it returns the cases and no error. -/
theorem validateTestCases_rejects_iff (n : Int) (cases : List GoString) :
    (Rejected n cases ↔
      ((validateTestCases n cases).1 = none ∧ (validateTestCases n cases).2 ≠ none)) ∧
    (¬ Rejected n cases ↔ validateTestCases n cases = (some cases, none)) := by
  by_cases h : Rejected n cases
  · obtain ⟨err, he⟩ := validateTestCases_of_rejected n cases h
    simp [h, he]
  · have he := validateTestCases_of_valid n cases h
    simp [h, he]

theorem validateTestCases_rejects_iff_witness :
    ((validateTestCases 1 [[plus, 65, plus, plus, plus, minus]]).1 = none ∧
      (validateTestCases 1 [[plus, 65, plus, plus, plus, minus]]).2 ≠ none) ∧
    ((validateTestCases 0 []).1 = none ∧ (validateTestCases 0 []).2 ≠ none) ∧
    ((validateTestCases 101 []).1 = none ∧ (validateTestCases 101 []).2 ≠ none) ∧
    ((validateTestCases 1 [[]]).1 = none ∧ (validateTestCases 1 [[]]).2 ≠ none) ∧
    ((validateTestCases 1 [List.replicate 101 plus]).1 = none ∧
      (validateTestCases 1 [List.replicate 101 plus]).2 ≠ none) ∧
    ((validateTestCases 2 [[plus]]).1 = none ∧ (validateTestCases 2 [[plus]]).2 ≠ none) ∧
    ((validateTestCases 1 [[plus], [minus]]).1 = none ∧
      (validateTestCases 1 [[plus], [minus]]).2 ≠ none) :=
  ⟨(validateTestCases_rejects_iff 1 [[plus, 65, plus, plus, plus, minus]]).1.1
      (Or.inr (Or.inr (Or.inr ⟨_, List.mem_singleton_self _, Or.inr (Or.inr (by decide))⟩))),
   (validateTestCases_rejects_iff 0 []).1.1 (Or.inl (by decide)),
   (validateTestCases_rejects_iff 101 []).1.1 (Or.inr (Or.inl (by decide))),
   (validateTestCases_rejects_iff 1 [[]]).1.1
      (Or.inr (Or.inr (Or.inr ⟨_, List.mem_singleton_self _, Or.inl rfl⟩))),
   (validateTestCases_rejects_iff 1 [List.replicate 101 plus]).1.1
      (Or.inr (Or.inr (Or.inr ⟨_, List.mem_singleton_self _, Or.inr (Or.inl (by decide))⟩))),
   (validateTestCases_rejects_iff 2 [[plus]]).1.1 (Or.inr (Or.inr (Or.inl (by decide)))),
   (validateTestCases_rejects_iff 1 [[plus], [minus]]).1.1
      (Or.inr (Or.inr (Or.inl (by decide))))⟩

/-- C6: `validateTestCases` reports the first rule that fails, in the order of
the source: a count outside 1..100 gives the count-range error whatever the
cases are; otherwise a number of cases different from the count gives the
count-mismatch error whatever the cases are; otherwise the error is that of the
first invalid case `c` (every case before it valid, the cases after it
arbitrary): the empty-case error if `c` is empty, else the length error if `c`
has more than 100 bytes (whatever its bytes are), else the illegal-character
error. -/
theorem validateTestCases_first_failure (n : Int) (cases : List GoString) :
    ((n < 1 ∨ n > 100) →
      validateTestCases n cases = (none, some (.countOutOfRange 1 100 n))) ∧
    ((1 ≤ n ∧ n ≤ 100) → (cases.length : Int) ≠ n →
      validateTestCases n cases = (none, some (.countMismatch n cases.length))) ∧
    ((1 ≤ n ∧ n ≤ 100) → (cases.length : Int) = n →
      ∀ (good : List GoString) (c : GoString) (rest : List GoString),
        cases = good ++ c :: rest → (∀ g ∈ good, ValidCase g) →
        (c = [] → validateTestCases n cases = (none, some .emptyTestCase)) ∧
        (c.length > 100 →
          validateTestCases n cases = (none, some (.testCaseTooLong 100 c.length))) ∧
        (c ≠ [] → c.length ≤ 100 → ¬ IsPancakes c →
          ∃ r, validateTestCases n cases = (none, some (.illegalCharacter r)))) := by
  refine ⟨?_, ?_, ?_⟩
  · intro h
    have hr : n > 100 ∨ n < 1 := by omega
    simp only [validateTestCases, MAX_NUM_TEST_CASES, MIN_NUM_TEST_CASES, hr, if_true]
  · intro h hlen
    have hr : ¬ (n > MAX_NUM_TEST_CASES ∨ n < MIN_NUM_TEST_CASES) := by
      simp only [MAX_NUM_TEST_CASES, MIN_NUM_TEST_CASES]; omega
    simp only [validateTestCases, hr, if_false, hlen, ne_eq, not_false_eq_true, if_true]
  · rintro ⟨h1, h100⟩ hlen good c rest rfl hgood
    refine ⟨?_, ?_, ?_⟩
    · intro hc
      apply validateTestCases_in_range n _ h1 h100 hlen
      rw [validateLoop_append _ _ hgood, hc]
      rfl
    · intro hc
      apply validateTestCases_in_range n _ h1 h100 hlen
      rw [validateLoop_append _ _ hgood]
      have hne : c ≠ [] := by intro e; simp [e] at hc
      simp only [validateLoop, hne, if_false, MAX_TEST_CASE_SIZE, hc, if_true]
      rfl
    · intro hne hsize hp
      obtain ⟨pre, b, tl, rfl, hpre, hb1, hb2⟩ := exists_first_other c hp
      refine ⟨((decodeRune (b :: tl)).1 : Int), validateTestCases_in_range n _ h1 h100 hlen _ ?_⟩
      rw [validateLoop_append _ _ hgood]
      have hs' : ¬ (pre ++ b :: tl).length > MAX_TEST_CASE_SIZE := by
        simp only [MAX_TEST_CASE_SIZE]; omega
      have hcc := checkCharacters_first pre (pre ++ b :: tl).length b tl hpre hb1 hb2 (by simp)
      simp only [validateLoop, hne, if_false, hs', hcc]

theorem validateTestCases_first_failure_witness :
    validateTestCases 0 [[]] = (none, some (.countOutOfRange 1 100 0)) ∧
    validateTestCases 2 [[]] = (none, some (.countMismatch 2 1)) ∧
    validateTestCases 2 [[plus], List.replicate 101 65]
      = (none, some (.testCaseTooLong 100 101)) ∧
    validateTestCases 2 [[], [65]] = (none, some .emptyTestCase) :=
  ⟨(validateTestCases_first_failure 0 [[]]).1 (Or.inl (by decide)),
   (validateTestCases_first_failure 2 [[]]).2.1 ⟨by decide, by decide⟩ (by decide),
   ((validateTestCases_first_failure 2 [[plus], List.replicate 101 65]).2.2
      ⟨by decide, by decide⟩ (by decide) [[plus]] (List.replicate 101 65) [] rfl
      (by decide)).2.1 (by decide),
   ((validateTestCases_first_failure 2 [[], [65]]).2.2
      ⟨by decide, by decide⟩ (by decide) [] [] [[65]] rfl (by decide)).1 rfl⟩

/-- C9: when the count is in range, the number of cases matches, every earlier
case is valid and the case itself is at most 100 bytes long, a case whose first
byte other than `+` and `-` is `b` (after a prefix `pre` of `+` and `-`) makes
`validateTestCases` fail with the illegal-character error carrying the
character that starts at `b`: the rune the `range` loop decodes there, which
is `b` itself when `b` is an ASCII byte; the message prints its code point. -/
theorem validateTestCases_names_character (n : Int) (good : List GoString) (pre : GoString)
    (b : UInt8) (rest : GoString) (later : List GoString)
    (h1 : 1 ≤ n) (h100 : n ≤ 100)
    (hlen : ((good ++ (pre ++ b :: rest) :: later).length : Int) = n)
    (hgood : ∀ g ∈ good, ValidCase g) (hpre : IsPancakes pre)
    (hb : b ≠ plus ∧ b ≠ minus) (hsize : (pre ++ b :: rest).length ≤ 100) :
    validateTestCases n (good ++ (pre ++ b :: rest) :: later)
        = (none, some (.illegalCharacter (decodeRune (b :: rest)).1)) ∧
      (b.toNat < 0x80 → (decodeRune (b :: rest)).1 = b.toNat) ∧
      (Error.illegalCharacter (decodeRune (b :: rest)).1).message
        = some (ofString "only '+' and '-' allowed. File contains : "
            ++ formatInt (decodeRune (b :: rest)).1 ++ ofString " in test cases") := by
  refine ⟨validateTestCases_in_range n _ h1 h100 hlen _ ?_, ?_, rfl⟩
  · rw [validateLoop_append _ _ hgood]
    have hne : pre ++ b :: rest ≠ [] := by simp
    have hs' : ¬ (pre ++ b :: rest).length > MAX_TEST_CASE_SIZE := by
      simp only [MAX_TEST_CASE_SIZE]; omega
    have hcc := checkCharacters_first pre (pre ++ b :: rest).length b rest hpre hb.1 hb.2
      (by simp)
    simp only [validateLoop, hne, if_false, hs', hcc]
  · intro h
    simp only [decodeRune, h, if_true]

theorem validateTestCases_names_character_witness :
    validateTestCases 1 [[plus, 65, plus, plus, plus, minus]]
        = (none, some (.illegalCharacter 65)) ∧
      ((65 : UInt8).toNat < 0x80 → (decodeRune [65, plus, plus, plus, minus]).1 = 65) ∧
      (Error.illegalCharacter 65).message
        = some (ofString "only '+' and '-' allowed. File contains : 65 in test cases") :=
  validateTestCases_names_character 1 [] [plus] 65 [plus, plus, plus, minus] []
    (by decide) (by decide) (by decide) (by decide) (by decide) (by decide) (by decide)

/-! ## `flip` inverts a prefix -/

theorem getElem?_flipList (s : GoString) : ∀ (k i : Nat),
    (flipList k s)[i]? = if i < k then s[i]?.map invert else s[i]? := by
  induction s with
  | nil => intro k i; simp
  | cons a s ih =>
    intro k i
    cases k with
    | zero => simp
    | succ k =>
      cases i with
      | zero => simp
      | succ i => simp [ih k i]

/-- C7: for every string `s` and every `k` with `0 <= k <= len(s)`, `flip(k, s)`
leaves a string of the same length in which each of the first `k` symbols is
inverted (`+` becomes `-`, `-` becomes `+`) and every symbol at position `k` or
later is unchanged; `flip(0, s)` leaves `s` unchanged. -/
theorem flip_prefix_inverted (s : GoString) (k : Int) (h0 : 0 ≤ k) (hk : k ≤ s.length) :
    (∃ t, flip k s = .ok t ∧ t.length = s.length ∧
      (∀ i : Nat, (i : Int) < k →
        (s[i]? = some plus → t[i]? = some minus) ∧ (s[i]? = some minus → t[i]? = some plus)) ∧
      (∀ i : Nat, k ≤ (i : Int) → t[i]? = s[i]?)) ∧
    flip 0 s = .ok s := by
  obtain ⟨m, rfl⟩ := Int.eq_ofNat_of_zero_le h0
  have hm : m ≤ s.length := by omega
  refine ⟨⟨flipList m s, flip_eq_ok m s hm, length_flipList m s, ?_, ?_⟩, flip_nonpos 0 s (le_refl _)⟩
  · intro i hi
    have hi' : i < m := by omega
    rw [getElem?_flipList, if_pos hi']
    constructor
    · intro h; rw [h]; rfl
    · intro h; rw [h]; rfl
  · intro i hi
    have hi' : ¬ i < m := by omega
    rw [getElem?_flipList, if_neg hi']

theorem flip_prefix_inverted_witness :
    (∃ t, flip 3 [minus, minus, minus, plus, plus, minus] = .ok t ∧
      t.length = ([minus, minus, minus, plus, plus, minus] : GoString).length ∧
      (∀ i : Nat, (i : Int) < 3 →
        (([minus, minus, minus, plus, plus, minus] : GoString)[i]? = some plus
          → t[i]? = some minus) ∧
        (([minus, minus, minus, plus, plus, minus] : GoString)[i]? = some minus
          → t[i]? = some plus)) ∧
      (∀ i : Nat, (3 : Int) ≤ (i : Int) →
        t[i]? = ([minus, minus, minus, plus, plus, minus] : GoString)[i]?)) ∧
    flip 0 [minus, minus, minus, plus, plus, minus]
      = .ok [minus, minus, minus, plus, plus, minus] :=
  flip_prefix_inverted [minus, minus, minus, plus, plus, minus] 3 (by decide) (by decide)

/-! ## `solvePancakeRevenge` -/

theorem writeCases_eq (cases : List GoString) (counts : List Int)
    (h : List.Forall₂ (fun c k => cleverSolve c = .ok k) cases counts) :
    ∀ (i : Nat) (written : GoString),
      writeCases cases (i : Int) written
        = .ok (written
            ++ ((counts.enumFrom i).map (fun p => caseLine ((p.1 : Int) + 1) p.2)).flatten) := by
  induction h with
  | nil => intro i written; simp [writeCases]
  | @cons c k _ _ hck _ ih =>
    intro i written
    have := ih (i + 1) (written ++ caseLine ((i : Int) + 1) k)
    simp only [writeCases, hck, List.enumFrom_cons, List.map_cons, List.flatten_cons]
    push_cast at this
    rw [this, List.append_assoc]

theorem exists_counts (cases : List GoString) (h : ∀ c ∈ cases, ValidCase c) :
    ∃ counts, List.Forall₂ (fun c k => cleverSolve c = .ok k) cases counts := by
  induction cases with
  | nil => exact ⟨[], List.Forall₂.nil⟩
  | cons c cases ih =>
    obtain ⟨counts, hc⟩ := ih (fun x hx => h x (List.mem_cons_of_mem _ hx))
    obtain ⟨h1, _, h3⟩ := h c (List.mem_cons_self _ _)
    exact ⟨(flipCount c : Int) :: counts, List.Forall₂.cons (cleverSolve_eq_flipCount c h1 h3) hc⟩

theorem not_rejected_of_accepted (n : Int) (cases : List GoString) (r : List GoString)
    (h : validateTestCases n cases = (some r, none)) : ¬ Rejected n cases := by
  intro hr
  obtain ⟨err, he⟩ := validateTestCases_of_rejected n cases hr
  rw [he] at h
  simp at h

theorem handleUserInput_loaded (w : World) (prog path first : GoString) (cases : List GoString)
    (n : Int) (hopen : w.inputs.lookup path = some (first :: cases))
    (hatoi : atoi first = some n) (h0 : 0 ≤ n) (hcap : n ≤ maxStringSliceCap) :
    handleUserInput w [prog, path] = .ok (validateTestCases n cases) := by
  have hm : ¬ (n < 0 ∨ maxStringSliceCap < n) := by omega
  simp [handleUserInput, hopen, hatoi, hm]

/-- C8: for a batch that `validateTestCases` accepts, read from the file named
by the argument, `solvePancakeRevenge` returns 0 and leaves in the file
`<path>.out` the concatenation, in input order, of the lines
`Case #<i>: <cleverSolve(case i)>` (`i` from 1, decimal, each ended by a
newline); every accepted case has such a count. -/
theorem solvePancakeRevenge_writes (w : World) (prog path first : GoString)
    (cases : List GoString) (n : Int) (printError : Bool)
    (hopen : w.inputs.lookup path = some (first :: cases)) (hatoi : atoi first = some n)
    (hvalid : validateTestCases n cases = (some cases, none))
    (hcreate : path ++ ofString ".out" ∉ w.uncreatable) :
    (∃ counts, List.Forall₂ (fun c k => cleverSolve c = .ok k) cases counts) ∧
    ∀ counts, List.Forall₂ (fun c k => cleverSolve c = .ok k) cases counts →
      solvePancakeRevenge w [prog, path] printError
        = .ok (0, { w with
            outputs := (path ++ ofString ".out", outputText counts)
              :: w.outputs.filter (fun f => f.1 ≠ path ++ ofString ".out") }) := by
  obtain ⟨⟨h1, h100⟩, _, hall⟩ := (rejected_iff n cases).1 (not_rejected_of_accepted n cases _ hvalid)
  refine ⟨exists_counts cases hall, ?_⟩
  intro counts hcounts
  have hload := handleUserInput_loaded w prog path first cases n hopen hatoi (by omega)
    (by simp only [maxStringSliceCap]; omega)
  have hw := writeCases_eq cases counts hcounts 0 []
  simp only [Nat.cast_zero, List.nil_append] at hw
  have hargs : ([prog, path] : List GoString)[1]? = some path := rfl
  simp only [solvePancakeRevenge, hload, hvalid, hargs, hcreate, if_false, Option.getD_some, hw,
    outputText, List.enum]

theorem solvePancakeRevenge_writes_witness :
    solvePancakeRevenge (worldWith [ofString "2", ofString "----", ofString "+++"])
        [ofString "pancake_revenge", ofString "in"] false
      = .ok (0, { worldWith [ofString "2", ofString "----", ofString "+++"] with
          outputs := [(ofString "in.out", ofString "Case #1: 1\nCase #2: 0\n")] }) ∧
    solvePancakeRevenge (worldWith [ofString "1", ofString "+++++-"])
        [ofString "pancake_revenge", ofString "in"] false
      = .ok (0, { worldWith [ofString "1", ofString "+++++-"] with
          outputs := [(ofString "in.out", ofString "Case #1: 2\n")] }) ∧
    solvePancakeRevenge (worldWith [ofString "1", ofString "---++-"])
        [ofString "pancake_revenge", ofString "in"] false
      = .ok (0, { worldWith [ofString "1", ofString "---++-"] with
          outputs := [(ofString "in.out", ofString "Case #1: 3\n")] }) :=
  ⟨(solvePancakeRevenge_writes (worldWith [ofString "2", ofString "----", ofString "+++"])
      (ofString "pancake_revenge") (ofString "in") (ofString "2")
      [ofString "----", ofString "+++"] 2 false rfl rfl rfl (by decide)).2 [1, 0]
      (List.Forall₂.cons (by decide) (List.Forall₂.cons (by decide) List.Forall₂.nil)),
   (solvePancakeRevenge_writes (worldWith [ofString "1", ofString "+++++-"])
      (ofString "pancake_revenge") (ofString "in") (ofString "1")
      [ofString "+++++-"] 1 false rfl rfl rfl (by decide)).2 [2]
      (List.Forall₂.cons (by decide) List.Forall₂.nil),
   (solvePancakeRevenge_writes (worldWith [ofString "1", ofString "---++-"])
      (ofString "pancake_revenge") (ofString "in") (ofString "1")
      [ofString "---++-"] 1 false rfl rfl rfl (by decide)).2 [3]
      (List.Forall₂.cons (by decide) List.Forall₂.nil)⟩

/-- C8, the example that fails: on the batch `["+++++-"]` the file written is
`Case #1: 2`, not `Case #1: 1`: the string has one boundary and ends in `-`. -/
theorem solvePancakeRevenge_example_not_one :
    cleverSolve (ofString "+++++-") = .ok 2 ∧
    solvePancakeRevenge (worldWith [ofString "1", ofString "+++++-"])
        [ofString "pancake_revenge", ofString "in"] false
      = .ok (0, { worldWith [ofString "1", ofString "+++++-"] with
          outputs := [(ofString "in.out", ofString "Case #1: 2\n")] }) ∧
    solvePancakeRevenge (worldWith [ofString "1", ofString "+++++-"])
        [ofString "pancake_revenge", ofString "in"] false
      ≠ .ok (0, { worldWith [ofString "1", ofString "+++++-"] with
          outputs := [(ofString "in.out", ofString "Case #1: 1\n")] }) := by
  decide

/-- Whenever `handleUserInput` returns an error, `solvePancakeRevenge` returns
1 and leaves the files as they were. -/
theorem solvePancakeRevenge_of_input_error (w : World) (args : List GoString)
    (printError : Bool) (r : Option (List GoString)) (err : Error)
    (h : handleUserInput w args = .ok (r, some err)) :
    ∃ w', solvePancakeRevenge w args printError = .ok (1, w') ∧ w'.outputs = w.outputs := by
  simp only [solvePancakeRevenge, h]
  cases printError <;> exact ⟨_, rfl, rfl⟩

/-- The ways `handleUserInput` returns an error without reaching a panic: no
file argument, a file that cannot be opened, no first line, a first line that
is no integer, or a batch `validateTestCases` rejects whose declared count the
slice allocation accepts. -/
theorem handleUserInput_errors (w : World) (prog path : GoString) :
    handleUserInput w [prog] = .ok (none, some .missingInputFile) ∧
    (w.inputs.lookup path = none →
      handleUserInput w [prog, path] = .ok (none, some (.openFailed path))) ∧
    (w.inputs.lookup path = some [] →
      handleUserInput w [prog, path] = .ok (none, some .firstLineUnreadable)) ∧
    (∀ first cases, w.inputs.lookup path = some (first :: cases) → atoi first = none →
      handleUserInput w [prog, path] = .ok (none, some (.countNotInteger first))) ∧
    (∀ first cases n, w.inputs.lookup path = some (first :: cases) → atoi first = some n →
      0 ≤ n → n ≤ maxStringSliceCap → Rejected n cases →
      ∃ err, handleUserInput w [prog, path] = .ok (none, some err)) := by
  refine ⟨rfl, ?_, ?_, ?_, ?_⟩
  · intro h; simp [handleUserInput, h]
  · intro h; simp [handleUserInput, h]
  · intro first cases h1 h2; simp [handleUserInput, h1, h2]
  · intro first cases n h1 h2 h3 h4 h5
    obtain ⟨err, he⟩ := validateTestCases_of_rejected n cases h5
    exact ⟨err, by rw [handleUserInput_loaded w prog path first cases n h1 h2 h3 h4, he]⟩

/-- C10, the input on which the code departs from it: a file whose first line
is `-1` is a batch `validateTestCases` rejects (count below 1), yet
`solvePancakeRevenge` returns no status: `make([]string, 0, -1)` panics at
line 41, before `validateTestCases` is called. -/
theorem solvePancakeRevenge_negative_count_panics :
    atoi (ofString "-1") = some (-1) ∧
    validateTestCases (-1) [ofString "+"] = (none, some (.countOutOfRange 1 100 (-1))) ∧
    solvePancakeRevenge (worldWith [ofString "-1", ofString "+"])
        [ofString "pancake_revenge", ofString "in"] false
      = .error .makesliceCapOutOfRange := by
  decide

/-! ## Boundaries and uniform strings -/

theorem boundaryCount_cons_cons (a b : UInt8) (l : GoString) :
    boundaryCount (a :: b :: l) = (if b ≠ a then 1 else 0) + boundaryCount (b :: l) := by
  unfold boundaryCount
  have e1 : (a :: b :: l).length - 1 = (l.length) + 1 := by simp
  have e2 : (b :: l).length - 1 = l.length := by simp
  rw [e1, e2, List.range'_succ, List.countP_cons]
  have e3 : List.range' (1 + 1) l.length = (List.range' 1 l.length).map (1 + ·) :=
    (List.map_add_range' 1 1 l.length 1).symm
  rw [e3, List.countP_map]
  have e4 : List.countP ((fun i => decide ((a :: b :: l)[i]? ≠ (a :: b :: l)[i - 1]?)) ∘ (1 + ·))
      (List.range' 1 l.length)
      = List.countP (fun i => decide ((b :: l)[i]? ≠ (b :: l)[i - 1]?))
        (List.range' 1 l.length) := by
    apply List.countP_congr
    intro i hi
    have hi1 : 1 ≤ i := (List.mem_range'_1.1 hi).1
    obtain ⟨j, rfl⟩ : ∃ j, i = j + 1 := ⟨i - 1, by omega⟩
    have e5 : 1 + (j + 1) = (j + 1) + 1 := by omega
    simp [e5]
  rw [e4, Nat.add_comm]
  congr 1
  by_cases h : b = a <;> simp [h]

theorem changes_eq_boundaryCount (s : GoString) : changes s = boundaryCount s := by
  induction s with
  | nil => rfl
  | cons a s ih =>
    cases s with
    | nil => rfl
    | cons b l => rw [changes_cons_cons, boundaryCount_cons_cons, ih]

theorem changes_map_invert (l : GoString) (hl : IsPancakes l) :
    changes (l.map invert) = changes l := by
  induction l with
  | nil => rfl
  | cons a l ih =>
    cases l with
    | nil => rfl
    | cons b l =>
      have h := ih hl.tail
      simp only [List.map_cons] at h ⊢
      rw [changes_cons_cons, changes_cons_cons, h]
      have e := invert_ne_invert hl.head hl.tail.head
      simp only [e]

theorem flipList_length_eq (s : GoString) : flipList s.length s = s.map invert := by
  simp [flipList]

/-- A flip lowers the number of boundaries by at most one. -/
theorem changes_flipList_ge (s : GoString) (hs : IsPancakes s) (k : Nat) (hk : k ≤ s.length) :
    changes s ≤ changes (flipList k s) + 1 := by
  rcases Nat.eq_zero_or_pos k with rfl | hpos
  · simp
  · rcases Nat.lt_or_ge k s.length with hlt | hge
    · have h := changes_flipList s k hs hpos hlt
      split at h <;> omega
    · have e : k = s.length := by omega
      rw [e, flipList_length_eq, changes_map_invert s hs]
      omega

theorem changes_flipList_boundary (s : GoString) (hs : IsPancakes s) (k : Nat) (hpos : 1 ≤ k)
    (hk : k < s.length) (hb : s[k - 1]? ≠ s[k]?) : changes (flipList k s) + 1 = changes s := by
  have h := changes_flipList s k hs hpos hk
  rw [if_neg hb] at h
  omega

theorem changes_eq_zero_of_uniform (t : GoString) (h : Uniform t) : changes t = 0 := by
  rcases List.eq_nil_or_concat t with rfl | ⟨pre, a, rfl⟩
  · rfl
  · rw [List.concat_eq_append] at h ⊢
    rcases h with h | h
    · have ha : a = plus := h a (by simp)
      subst ha
      exact changes_of_all_eq pre plus (fun b hb => h b (by simp [hb]))
    · have ha : a = minus := h a (by simp)
      subst ha
      exact changes_of_all_eq pre minus (fun b hb => h b (by simp [hb]))

theorem uniform_of_changes_eq_zero (t : GoString) (ht : IsPancakes t) (h : changes t = 0) :
    Uniform t := by
  rcases List.eq_nil_or_concat t with rfl | ⟨pre, a, rfl⟩
  · left; intro b hb; simp at hb
  · rw [List.concat_eq_append] at h ht ⊢
    have hpre := changes_append_eq_zero pre a h
    have hall : ∀ b ∈ pre ++ [a], b = a := by
      intro b hb
      rcases List.mem_append.1 hb with hb | hb
      · exact hpre b hb
      · simpa using hb
    rcases ht a (by simp) with ha | ha
    · left; intro b hb; rw [hall b hb, ha]
    · right; intro b hb; rw [hall b hb, ha]

theorem applyFlips_changes_lower (ks : List Int) : ∀ (s t : GoString), IsPancakes s →
    applyFlips ks s = .ok t → changes s ≤ changes t + ks.length := by
  induction ks with
  | nil =>
    intro s t _ h
    simp only [applyFlips, Except.ok.injEq] at h
    subst h; simp
  | cons k ks ih =>
    intro s t hs h
    simp only [applyFlips] at h
    cases hf : flip k s with
    | error p => simp [hf] at h
    | ok u =>
      simp only [hf] at h
      obtain ⟨hk, rfl⟩ := (flip_ok_iff k s u).1 hf
      have h1 := ih _ t (hs.flipList k.toNat) h
      have h2 := changes_flipList_ge s hs k.toNat (by omega)
      simp only [List.length_cons]
      omega

theorem applyFlips_changes_upper (n : Nat) : ∀ (s : GoString), IsPancakes s → changes s = n →
    ∃ ks : List Int, ks.length = n ∧ (∀ k ∈ ks, 0 ≤ k ∧ k ≤ (s.length : Int)) ∧
      ∃ t, applyFlips ks s = .ok t ∧ Uniform t := by
  induction n with
  | zero =>
    intro s hs h
    exact ⟨[], rfl, by simp, s, rfl, uniform_of_changes_eq_zero s hs h⟩
  | succ n ih =>
    intro s hs h
    obtain ⟨k, hk1, hk2, hk3⟩ := exists_boundary s (by omega)
    have hc := changes_flipList_boundary s hs k hk1 hk2 hk3
    obtain ⟨ks, hlen, hrange, t, hrun, ht⟩ := ih (flipList k s) (hs.flipList k) (by omega)
    refine ⟨(k : Int) :: ks, by simp [hlen], ?_, t, ?_, ht⟩
    · intro j hj
      rcases List.mem_cons.1 hj with rfl | hj
      · exact ⟨by omega, by omega⟩
      · simpa using hrange j hj
    · simp only [applyFlips, flip_eq_ok k s (Nat.le_of_lt hk2), hrun]

theorem cleverLoop_eq_changes (s : GoString) :
    cleverLoop s (s.length - 1) 1 0 = .ok (changes s : Int) := by
  cases s with
  | nil => rfl
  | cons c t =>
    have := cleverLoop_append t [] c 0
    simpa using this

/-- C11: on a non-empty string of `+` and `-`, the number of boundaries (the
indices `i`, `1 <= i < len(s)`, with `s[i] != s[i-1]`, which is the count the
loop of `cleverSolve` accumulates) is the minimum number of prefix flips
`flip(k, .)`, `0 <= k <= len(s)`, that make the string uniform: some run of
exactly that many flips ends in a uniform string, and no run that ends in a
uniform string is shorter. -/
theorem boundaries_minimum_uniform (s : GoString) (_hne : s ≠ []) (hs : IsPancakes s) :
    cleverLoop s (s.length - 1) 1 0 = .ok (boundaryCount s : Int) ∧
      (∃ ks : List Int, ks.length = boundaryCount s ∧
        (∀ k ∈ ks, 0 ≤ k ∧ k ≤ (s.length : Int)) ∧
        ∃ t, applyFlips ks s = .ok t ∧ Uniform t) ∧
      (∀ (ks : List Int) (t : GoString), applyFlips ks s = .ok t → Uniform t →
        boundaryCount s ≤ ks.length) := by
  rw [← changes_eq_boundaryCount]
  refine ⟨cleverLoop_eq_changes s, applyFlips_changes_upper _ s hs rfl, ?_⟩
  intro ks t hrun ht
  have h := applyFlips_changes_lower ks s t hs hrun
  have h0 := changes_eq_zero_of_uniform t ht
  omega

theorem boundaries_minimum_uniform_witness :
    cleverLoop [minus, minus, minus, plus, plus, minus]
        (([minus, minus, minus, plus, plus, minus] : GoString).length - 1) 1 0
      = .ok (boundaryCount [minus, minus, minus, plus, plus, minus] : Int) ∧
      (∃ ks : List Int, ks.length = boundaryCount [minus, minus, minus, plus, plus, minus] ∧
        (∀ k ∈ ks,
          0 ≤ k ∧ k ≤ (([minus, minus, minus, plus, plus, minus] : GoString).length : Int)) ∧
        ∃ t, applyFlips ks [minus, minus, minus, plus, plus, minus] = .ok t ∧ Uniform t) ∧
      (∀ (ks : List Int) (t : GoString),
        applyFlips ks [minus, minus, minus, plus, plus, minus] = .ok t → Uniform t →
        boundaryCount [minus, minus, minus, plus, plus, minus] ≤ ks.length) :=
  boundaries_minimum_uniform [minus, minus, minus, plus, plus, minus] (by decide) (by decide)

/-! ## The iterations of `modelSolve` -/

/-- The outer loop of `modelSolve` runs its body, then stops at the `break` or
goes on with one iteration less before the cap. -/
theorem modelOuter_succ (n : Nat) (st : ModelState) :
    modelOuter (n + 1) st =
      match modelBody st with
      | .error p => .error p
      | .ok (st', true) => modelOuter n st'
      | .ok (st', false) => .ok st' := by
  simp only [modelOuter, modelBody]
  cases modelInner st.pancakes (st.pancakes.length - st.pancakesToFlip)
      st.pancakesToFlip st.pancakesToFlip with
  | error p => rfl
  | ok q =>
    by_cases h : q = st.pancakes.length
    · simp only [h, if_true]
    · simp only [h, if_false]
      cases flip (q : Int) st.pancakes <;> rfl

theorem modelSolve_eq_modelStart (s : GoString) :
    modelSolve s =
      match modelOuter MAX_TEST_CASE_SIZE (modelStart s) with
      | .error p => .error p
      | .ok st =>
        match index st.pancakes 0 with
        | .error p => .error p
        | .ok b => .ok (if b = minus then st.numOfFlips + 1 else st.numOfFlips) := rfl

/-- The body on a uniform prefix of `p + 1 + a` symbols `c` that is the whole
string: the `break`. -/
theorem modelBody_uniform (p a : Nat) (c : UInt8) (f : Int) (lc : Nat) :
    modelBody ⟨List.replicate p c ++ c :: List.replicate a c, p, f, lc⟩
      = .ok (⟨List.replicate p c ++ c :: List.replicate a c, p + (a + 1), f, lc + 1⟩, false) := by
  have hs0 : (List.replicate p c ++ c :: (List.replicate a c ++ []))[0]? = some c := by
    cases p <;> simp [List.replicate_succ]
  have hin := modelInner_run _ c hs0 [] (Or.inl rfl) (a + 1) (List.replicate p c) p
    (by simp [List.replicate_succ])
  simp only [List.length_replicate, List.append_nil, List.length_nil, Nat.add_zero] at hin
  have hlen : (List.replicate p c ++ c :: List.replicate a c).length - p = a + 1 := by
    simp
  have e : p + (a + 1) = (List.replicate p c ++ c :: List.replicate a c).length := by
    simp
  simp only [modelBody, hlen, hin, e, if_true]

/-- The body on a uniform prefix of `p + 1 + a` symbols `c` followed by the
other symbol `d`: the prefix is flipped to `d`. -/
theorem modelBody_flip (p a : Nat) (c d : UInt8) (v : GoString) (f : Int) (lc : Nat)
    (hc : c = plus ∨ c = minus) (hd : d = plus ∨ d = minus) (hdc : d ≠ c) :
    modelBody ⟨List.replicate p c ++ c :: (List.replicate a c ++ d :: v), p, f, lc⟩
      = .ok (⟨List.replicate (p + (a + 1)) d ++ d :: v, p + (a + 1), f + 1, lc + 1⟩, true) := by
  have hs0 : (List.replicate p c ++ c :: (List.replicate a c ++ d :: v))[0]? = some c := by
    cases p <;> simp [List.replicate_succ]
  have hin := modelInner_run _ c hs0 (d :: v) (Or.inr ⟨d, v, rfl, hdc⟩) (a + 1)
    (List.replicate p c) p (by simp [List.replicate_succ])
  simp only [List.length_replicate] at hin
  have hlen : (List.replicate p c ++ c :: (List.replicate a c ++ d :: v)).length - p
      = (a + 1) + (d :: v).length := by
    simp; omega
  have e : ¬ p + (a + 1)
      = (List.replicate p c ++ c :: (List.replicate a c ++ d :: v)).length := by
    simp
  have hfl : flip ((p + (a + 1) : Nat) : Int)
      (List.replicate p c ++ c :: (List.replicate a c ++ d :: v))
      = .ok (List.replicate (p + (a + 1)) d ++ d :: v) := by
    rw [flip_eq_ok _ _ (by simp)]
    have : List.replicate p c ++ c :: (List.replicate a c ++ d :: v)
        = List.replicate (p + (a + 1)) c ++ d :: v := by
      simp [List.replicate_add, List.replicate_succ]
    rw [this, flipList_run, invert_of_ne hc hd hdc]
  simp only [modelBody, hlen, hin, e, if_false, hfl]

/-- The outer loop of `modelSolve`, started on a uniform prefix of `p` symbols
`c` followed by `c :: t`, with more iterations left than `c :: t` has
boundaries: it leaves at the `break`, after one flip per boundary and one
iteration more than that, on a uniform string of the last symbol. -/
theorem modelOuter_exit (n : Nat) : ∀ (p : Nat) (c : UInt8) (t : GoString) (f : Int) (lc : Nat),
    IsPancakes (c :: t) → changes (c :: t) < n →
    ∃ st x, modelOuter n ⟨List.replicate p c ++ c :: t, p, f, lc⟩ = .ok st ∧
      (c :: t).getLast? = some x ∧
      st.pancakes = List.replicate (p + 1 + t.length) x ∧
      st.numOfFlips = f + (changes (c :: t) : Int) ∧
      st.pancakesToFlip = p + 1 + t.length ∧
      st.loopCount = lc + changes (c :: t) + 1 := by
  induction n with
  | zero => intro p c t f lc _ hn; omega
  | succ n ih =>
    intro p c t f lc hp hn
    obtain ⟨a, u, rfl, hu⟩ := exists_run c t
    rw [changes_run] at hn ⊢
    rcases hu with rfl | ⟨d, v, rfl, hd⟩
    · simp only [List.append_nil]
      rw [modelOuter_succ, modelBody_uniform]
      refine ⟨_, c, rfl, getLast?_run c a, ?_, by simp [changes], ?_, by simp [changes]⟩
      · simp only [List.length_replicate]
        rw [← List.replicate_succ, ← List.replicate_add]
        congr 1; omega
      · simp only [List.length_replicate]; omega
    · have hd' : d = plus ∨ d = minus := hp d (by simp)
      rw [modelOuter_succ, modelBody_flip p a c d v f lc hp.head hd' hd]
      have hpv : IsPancakes (d :: v) := fun b hb => hp b (by
        rcases List.mem_cons.1 hb with rfl | hb <;> simp [*])
      have hn' : changes (d :: v) < n := by
        simp [changes_cons_cons, hd] at hn; omega
      obtain ⟨st, x, h1, h2, h3, h4, h5, h6⟩ := ih (p + (a + 1)) d v (f + 1) (lc + 1) hpv hn'
      refine ⟨st, x, h1, by rw [getLast?_run_cons]; exact h2, ?_, ?_, ?_, ?_⟩
      · rw [h3]; congr 1; simp; omega
      · rw [h4]; simp [changes_cons_cons, hd]; ring
      · rw [h5]; simp; omega
      · rw [h6]; simp [changes_cons_cons, hd]; omega

theorem allPlus_replicate (n : Nat) : AllPlus (List.replicate n plus) :=
  fun _ hb => (List.mem_replicate.1 hb).2

theorem uniform_replicate (n : Nat) (x : UInt8) (hx : x = plus ∨ x = minus) :
    Uniform (List.replicate n x) := by
  rcases hx with rfl | rfl
  · exact Or.inl (allPlus_replicate n)
  · exact Or.inr (fun _ hb => (List.mem_replicate.1 hb).2)

/-- C12: on a string of `+` and `-` of length 1 to 100 the outer loop of
`modelSolve` leaves at its `break` (`pancakesToFlip == len(pancakes)`), within
the cap of 100 iterations; at that point the working string is uniform, every
symbol being the last symbol of the original string, and the flips made are as
many as the boundaries of the original string; one more flip of the whole
string when that symbol is `-`, none when it is `+`, gives all `+`, and
`modelSolve` counts exactly that. -/
theorem modelSolve_loop_exit (s : GoString) (hs : IsPancakes s)
    (h1 : 1 ≤ s.length) (h100 : s.length ≤ 100) :
    ∃ st x, modelOuter MAX_TEST_CASE_SIZE (modelStart s) = .ok st ∧
      s.getLast? = some x ∧
      st.pancakes = List.replicate s.length x ∧ Uniform st.pancakes ∧
      st.numOfFlips = (boundaryCount s : Int) ∧
      st.pancakesToFlip = st.pancakes.length ∧
      st.loopCount = boundaryCount s + 1 ∧ st.loopCount ≤ MAX_TEST_CASE_SIZE ∧
      (x = minus → ∃ t, flip (s.length : Int) st.pancakes = .ok t ∧ AllPlus t) ∧
      (x ≠ minus → AllPlus st.pancakes) ∧
      modelSolve s = .ok (st.numOfFlips + if x = minus then 1 else 0) := by
  cases s with
  | nil => simp at h1
  | cons c t =>
    have hch : changes (c :: t) < MAX_TEST_CASE_SIZE := by
      have := changes_le c t
      simp only [List.length_cons] at h100
      simp only [MAX_TEST_CASE_SIZE]
      omega
    obtain ⟨st, x, e1, e2, e3, e4, e5, e6⟩ := modelOuter_exit MAX_TEST_CASE_SIZE 0 c t 0 0 hs hch
    simp only [List.replicate_zero, List.nil_append, Nat.zero_add, zero_add] at e1 e3 e4 e5 e6
    have hlen : (c :: t).length = 1 + t.length := by simp [Nat.add_comm]
    have hx : x = plus ∨ x = minus := hs x (List.mem_of_mem_getLast? e2)
    rw [← changes_eq_boundaryCount, hlen]
    refine ⟨st, x, e1, e2, e3, ?_, e4, ?_, e6, ?_, ?_, ?_, ?_⟩
    · rw [e3]; exact uniform_replicate _ x hx
    · rw [e5, e3, List.length_replicate]
    · rw [e6]; omega
    · rintro rfl
      refine ⟨List.replicate (1 + t.length) plus, ?_, allPlus_replicate _⟩
      rw [e3, flip_eq_ok _ _ (by simp)]
      have := flipList_run (1 + t.length) minus []
      simp only [List.append_nil] at this
      rw [this]; rfl
    · intro hne
      have : x = plus := by rcases hx with h | h; exact h; exact absurd h hne
      rw [e3, this]; exact allPlus_replicate _
    · have hidx : index st.pancakes 0 = .ok x := by
        rw [e3, Nat.add_comm]; exact index_zero_replicate _ x
      have e1' : modelOuter MAX_TEST_CASE_SIZE (modelStart (c :: t)) = .ok st := e1
      rw [modelSolve_eq_modelStart]
      simp only [e1', hidx]
      split <;> simp

theorem modelSolve_loop_exit_witness :
    ∃ st x, modelOuter MAX_TEST_CASE_SIZE (modelStart [minus, minus, minus, plus, plus, minus])
        = .ok st ∧
      ([minus, minus, minus, plus, plus, minus] : GoString).getLast? = some x ∧
      st.pancakes
        = List.replicate ([minus, minus, minus, plus, plus, minus] : GoString).length x ∧
      Uniform st.pancakes ∧
      st.numOfFlips = (boundaryCount [minus, minus, minus, plus, plus, minus] : Int) ∧
      st.pancakesToFlip = st.pancakes.length ∧
      st.loopCount = boundaryCount [minus, minus, minus, plus, plus, minus] + 1 ∧
      st.loopCount ≤ MAX_TEST_CASE_SIZE ∧
      (x = minus → ∃ t,
        flip (([minus, minus, minus, plus, plus, minus] : GoString).length : Int) st.pancakes
          = .ok t ∧ AllPlus t) ∧
      (x ≠ minus → AllPlus st.pancakes) ∧
      modelSolve [minus, minus, minus, plus, plus, minus]
        = .ok (st.numOfFlips + if x = minus then 1 else 0) :=
  modelSolve_loop_exit [minus, minus, minus, plus, plus, minus] (by decide) (by decide)
    (by decide)

/-! ## The states `modelSolve` goes through -/

theorem modelBody_loopCount (st st' : ModelState) (b : Bool)
    (h : modelBody st = .ok (st', b)) : st'.loopCount = st.loopCount + 1 := by
  unfold modelBody at h
  split at h
  · exact Except.noConfusion h
  · split at h
    · simp only [Except.ok.injEq, Prod.mk.injEq] at h
      rw [← h.1]
    · split at h
      · exact Except.noConfusion h
      · simp only [Except.ok.injEq, Prod.mk.injEq] at h
        rw [← h.1]

/-- The run of `modelSolve` passes through every reached state: from there, with
the iterations the cap still allows, the loop ends as the whole run does. -/
theorem modelOuter_of_reach (s : GoString) (st : ModelState) (h : ModelReach s st) :
    st.loopCount ≤ MAX_TEST_CASE_SIZE ∧
      modelOuter (MAX_TEST_CASE_SIZE - st.loopCount) st
        = modelOuter MAX_TEST_CASE_SIZE (modelStart s) := by
  induction h with
  | start => exact ⟨Nat.zero_le _, rfl⟩
  | step st st' _ hlt hbody ih =>
    have hlc := modelBody_loopCount st st' true hbody
    refine ⟨by omega, ?_⟩
    rw [← ih.2]
    have e : MAX_TEST_CASE_SIZE - st.loopCount = (MAX_TEST_CASE_SIZE - st'.loopCount) + 1 := by
      omega
    rw [e, modelOuter_succ, hbody]

theorem changes_replicate_append (p : Nat) (c : UInt8) (t : GoString) :
    changes (List.replicate p c ++ c :: t) = changes (c :: t) := by
  cases p with
  | zero => rfl
  | succ p =>
    rw [List.replicate_succ, List.cons_append, changes_run c p (c :: t), changes_cons_cons]
    simp

theorem changes_replicate_append_ne (n : Nat) (c d : UInt8) (v : GoString) (h : d ≠ c) :
    changes (List.replicate (n + 1) c ++ d :: v) = changes (d :: v) + 1 := by
  rw [List.replicate_succ, List.cons_append, changes_run c n (d :: v), changes_cons_cons]
  simp [h]; omega

theorem getElem?_replicate_append (n : Nat) (c : UInt8) (l : GoString) (i : Nat) (h : i < n) :
    (List.replicate n c ++ l)[i]? = some c := by
  rw [List.getElem?_append_left (by simpa using h)]
  simp [h]

/-- One iteration of `modelSolve` that ends with a flip, from a state whose
first `p` symbols equal the next one. -/
theorem modelBody_step (p : Nat) (c : UInt8) (t : GoString) (f : Int) (lc : Nat)
    (hp : IsPancakes (c :: t)) (st' : ModelState)
    (h : modelBody ⟨List.replicate p c ++ c :: t, p, f, lc⟩ = .ok (st', true)) :
    ∃ (a : Nat) (d : UInt8) (v : GoString), t = List.replicate a c ++ d :: v ∧ d ≠ c ∧
      IsPancakes (d :: v) ∧
      st' = ⟨List.replicate (p + (a + 1)) d ++ d :: v, p + (a + 1), f + 1, lc + 1⟩ ∧
      flip ((p + (a + 1) : Nat) : Int) (List.replicate p c ++ c :: t)
        = .ok (List.replicate (p + (a + 1)) d ++ d :: v) := by
  obtain ⟨a, u, rfl, hu⟩ := exists_run c t
  rcases hu with rfl | ⟨d, v, rfl, hd⟩
  · rw [List.append_nil, modelBody_uniform] at h
    simp at h
  · have hd' : d = plus ∨ d = minus := hp d (by simp)
    have hpv : IsPancakes (d :: v) := fun b hb => hp b (by
      rcases List.mem_cons.1 hb with rfl | hb <;> simp [*])
    rw [modelBody_flip p a c d v f lc hp.head hd' hd] at h
    simp only [Except.ok.injEq, Prod.mk.injEq, and_true] at h
    refine ⟨a, d, v, rfl, hd, hpv, h.symm, ?_⟩
    rw [flip_eq_ok _ _ (by simp)]
    have : List.replicate p c ++ c :: (List.replicate a c ++ d :: v)
        = List.replicate (p + (a + 1)) c ++ d :: v := by
      simp [List.replicate_add, List.replicate_succ]
    rw [this, flipList_run, invert_of_ne hp.head hd' hd]

/-- On a non-empty string of `+` and `-`, every reached state has a uniform
prefix of `pancakesToFlip` symbols equal to the symbol that follows, and no
more boundaries than the original string. -/
theorem reach_invariant (s : GoString) (hne : s ≠ []) (hs : IsPancakes s) (st : ModelState)
    (h : ModelReach s st) :
    ∃ (p : Nat) (c : UInt8) (t : GoString) (f : Int) (lc : Nat),
      st = ⟨List.replicate p c ++ c :: t, p, f, lc⟩ ∧ IsPancakes (c :: t) ∧
      changes (c :: t) ≤ changes s := by
  induction h with
  | start =>
    cases s with
    | nil => exact absurd rfl hne
    | cons c t => exact ⟨0, c, t, 0, 0, rfl, hs, le_refl _⟩
  | step st st' _ _ hbody ih =>
    obtain ⟨p, c, t, f, lc, rfl, hp, hle⟩ := ih
    obtain ⟨a, d, v, rfl, hd, hpv, rfl, _⟩ := modelBody_step p c t f lc hp st' hbody
    refine ⟨p + (a + 1), d, v, f + 1, lc + 1, rfl, hpv, ?_⟩
    rw [changes_run, changes_cons_cons] at hle
    omega

/-- C13: in `modelSolve` on a non-empty string of `+` and `-`, at every state the
run reaches, an iteration that flips does so on the maximal uniform prefix (its
length `pancakesToFlip` is above 0 and below the length, the symbols before it
all equal the first and the symbol at it differs) and the flip lowers the number
of boundaries of the working string by exactly one; the number of boundaries of
the working string never exceeds that of the original string. -/
theorem modelSolve_flips (s : GoString) (hne : s ≠ []) (hs : IsPancakes s)
    (st : ModelState) (hreach : ModelReach s st) :
    modelOuter (MAX_TEST_CASE_SIZE - st.loopCount) st
        = modelOuter MAX_TEST_CASE_SIZE (modelStart s) ∧
      boundaryCount st.pancakes ≤ boundaryCount s ∧
      ∀ st', modelBody st = .ok (st', true) →
        0 < st'.pancakesToFlip ∧ st'.pancakesToFlip < st.pancakes.length ∧
        (∀ i, i < st'.pancakesToFlip → st.pancakes[i]? = st.pancakes[0]?) ∧
        st.pancakes[st'.pancakesToFlip]? ≠ st.pancakes[0]? ∧
        flip (st'.pancakesToFlip : Int) st.pancakes = .ok st'.pancakes ∧
        boundaryCount st'.pancakes + 1 = boundaryCount st.pancakes := by
  obtain ⟨p, c, t, f, lc, rfl, hp, hle⟩ := reach_invariant s hne hs st hreach
  refine ⟨(modelOuter_of_reach s _ hreach).2, ?_, ?_⟩
  · rw [← changes_eq_boundaryCount, ← changes_eq_boundaryCount]
    simp only [changes_replicate_append]
    exact hle
  · intro st' hbody
    obtain ⟨a, d, v, rfl, hd, _, rfl, hfl⟩ := modelBody_step p c t f lc hp st' hbody
    have hform : List.replicate p c ++ c :: (List.replicate a c ++ d :: v)
        = List.replicate (p + (a + 1)) c ++ d :: v := by
      simp [List.replicate_add, List.replicate_succ]
    have h0 : (List.replicate (p + (a + 1)) c ++ d :: v)[0]? = some c :=
      getElem?_replicate_append _ c _ 0 (by omega)
    simp only [hform] at hfl ⊢
    refine ⟨by omega, by simp, ?_, ?_, hfl, ?_⟩
    · intro i hi
      rw [h0, getElem?_replicate_append _ c _ i hi]
    · rw [h0]
      have := getElem?_append_cons (List.replicate (p + (a + 1)) c) d v
      simp only [List.length_replicate] at this
      rw [this]
      intro e; exact hd (Option.some.inj e)
    · have e : p + (a + 1) = (p + a) + 1 := by omega
      rw [← changes_eq_boundaryCount, ← changes_eq_boundaryCount,
        changes_replicate_append, e, changes_replicate_append_ne _ c d v hd]

theorem modelSolve_flips_witness :
    (modelOuter (MAX_TEST_CASE_SIZE
          - (modelStart [minus, minus, minus, plus, plus, minus]).loopCount)
        (modelStart [minus, minus, minus, plus, plus, minus])
        = modelOuter MAX_TEST_CASE_SIZE (modelStart [minus, minus, minus, plus, plus, minus])) ∧
      boundaryCount (modelStart [minus, minus, minus, plus, plus, minus]).pancakes
        ≤ boundaryCount [minus, minus, minus, plus, plus, minus] ∧
      ∀ st', modelBody (modelStart [minus, minus, minus, plus, plus, minus]) = .ok (st', true) →
        0 < st'.pancakesToFlip ∧
        st'.pancakesToFlip
          < (modelStart [minus, minus, minus, plus, plus, minus]).pancakes.length ∧
        (∀ i, i < st'.pancakesToFlip →
          (modelStart [minus, minus, minus, plus, plus, minus]).pancakes[i]?
            = (modelStart [minus, minus, minus, plus, plus, minus]).pancakes[0]?) ∧
        (modelStart [minus, minus, minus, plus, plus, minus]).pancakes[st'.pancakesToFlip]?
          ≠ (modelStart [minus, minus, minus, plus, plus, minus]).pancakes[0]? ∧
        flip (st'.pancakesToFlip : Int)
            (modelStart [minus, minus, minus, plus, plus, minus]).pancakes
          = .ok st'.pancakes ∧
        boundaryCount st'.pancakes + 1
          = boundaryCount (modelStart [minus, minus, minus, plus, plus, minus]).pancakes :=
  modelSolve_flips [minus, minus, minus, plus, plus, minus] (by decide) (by decide)
    (modelStart [minus, minus, minus, plus, plus, minus]) ModelReach.start

/-! ## No index out of range -/

theorem modelInner_ok (s : GoString) (b0 : UInt8) (h0 : s[0]? = some b0) :
    ∀ (n index p : Nat), index + n = s.length →
      ∃ q, modelInner s n index p = .ok q ∧ p ≤ q ∧ q ≤ p + n := by
  intro n
  induction n with
  | zero => intro index p _; exact ⟨p, rfl, le_refl _, le_refl _⟩
  | succ n ih =>
    intro index p hlen
    have hi : index < s.length := by omega
    have h1 : s[index]? = some s[index] := List.getElem?_eq_getElem hi
    by_cases e : s[index] = b0
    · obtain ⟨q, hq, hq1, hq2⟩ := ih (index + 1) (p + 1) (by omega)
      refine ⟨q, ?_, by omega, by omega⟩
      simp only [modelInner, h1, h0, e, ne_eq, not_true_eq_false, if_false, hq]
    · refine ⟨p, ?_, le_refl _, by omega⟩
      simp only [modelInner, h1, h0, ne_eq, e, not_false_eq_true, if_true]

/-- The body of the outer loop of `modelSolve` does not panic on a non-empty
string with `pancakesToFlip` at most its length: the call to `flip`, when there
is one, has its count within the string, and the length is kept. -/
theorem modelBody_ok (st : ModelState) (hne : st.pancakes ≠ [])
    (hp : st.pancakesToFlip ≤ st.pancakes.length) :
    ∃ st' b, modelBody st = .ok (st', b) ∧ st'.pancakes.length = st.pancakes.length ∧
      st'.pancakesToFlip ≤ st.pancakes.length ∧
      (b = true → flip (st'.pancakesToFlip : Int) st.pancakes = .ok st'.pancakes) := by
  obtain ⟨b0, h0⟩ : ∃ b0, st.pancakes[0]? = some b0 := by
    cases hs : st.pancakes with
    | nil => exact absurd hs hne
    | cons a l => exact ⟨a, by simp⟩
  obtain ⟨q, hq, _, hq2⟩ := modelInner_ok st.pancakes b0 h0
    (st.pancakes.length - st.pancakesToFlip) st.pancakesToFlip st.pancakesToFlip (by omega)
  have hql : q ≤ st.pancakes.length := by omega
  by_cases e : q = st.pancakes.length
  · refine ⟨{ st with pancakesToFlip := q, loopCount := st.loopCount + 1 }, false, ?_, rfl,
      hql, by simp⟩
    simp only [modelBody, hq, e, if_true]
  · refine ⟨⟨flipList q st.pancakes, q, st.numOfFlips + 1, st.loopCount + 1⟩, true, ?_,
      length_flipList _ _, hql, fun _ => flip_eq_ok q _ hql⟩
    simp only [modelBody, hq, e, if_false, flip_eq_ok q _ hql]

theorem reach_bounds (s : GoString) (hne : s ≠ []) (st : ModelState) (h : ModelReach s st) :
    st.pancakes.length = s.length ∧ st.pancakesToFlip ≤ st.pancakes.length := by
  induction h with
  | start => exact ⟨rfl, Nat.zero_le _⟩
  | step st st' _ _ hbody ih =>
    have hne' : st.pancakes ≠ [] := by
      intro e
      have := ih.1
      rw [e] at this
      exact hne (List.length_eq_zero.1 this.symm)
    obtain ⟨st'', b, h1, h2, h3, _⟩ := modelBody_ok st hne' ih.2
    rw [hbody] at h1
    simp only [Except.ok.injEq, Prod.mk.injEq] at h1
    obtain ⟨rfl, _⟩ := h1
    exact ⟨by rw [h2, ih.1], by rw [h2]; exact h3⟩

theorem modelOuter_ok (n : Nat) : ∀ (st : ModelState), st.pancakes ≠ [] →
    st.pancakesToFlip ≤ st.pancakes.length →
    ∃ st', modelOuter n st = .ok st' ∧ st'.pancakes.length = st.pancakes.length := by
  induction n with
  | zero => intro st _ _; exact ⟨st, rfl, rfl⟩
  | succ n ih =>
    intro st hne hp
    obtain ⟨st', b, h1, h2, h3, _⟩ := modelBody_ok st hne hp
    rw [modelOuter_succ, h1]
    cases b with
    | false => exact ⟨st', rfl, h2⟩
    | true =>
      have hne' : st'.pancakes ≠ [] := by
        intro e
        rw [e] at h2
        exact hne (List.length_eq_zero.1 h2.symm)
      obtain ⟨st'', h4, h5⟩ := ih st' hne' (by rw [h2]; exact h3)
      exact ⟨st'', h4, by rw [h5, h2]⟩

theorem modelSolve_ok (s : GoString) (hne : s ≠ []) : ∃ b, modelSolve s = .ok b := by
  obtain ⟨st, h1, h2⟩ := modelOuter_ok MAX_TEST_CASE_SIZE (modelStart s) hne (Nat.zero_le _)
  have hne' : st.pancakes ≠ [] := by
    intro e
    rw [e] at h2
    exact hne (List.length_eq_zero.1 h2.symm)
  obtain ⟨a, l, hal⟩ := List.exists_cons_of_ne_nil hne'
  have hidx : index st.pancakes 0 = .ok a := by
    rw [hal]; simp [index]
  rw [modelSolve_eq_modelStart]
  simp only [h1, hidx]
  exact ⟨_, rfl⟩

theorem cleverSolve_ok (s : GoString) (hne : s ≠ []) : ∃ a, cleverSolve s = .ok a := by
  rcases List.eq_nil_or_concat s with h | ⟨pre, a, rfl⟩
  · exact absurd h hne
  · rw [List.concat_eq_append]
    exact ⟨_, cleverSolve_concat pre a⟩

theorem writeCases_ok (cases : List GoString) (h : ∀ c ∈ cases, c ≠ []) :
    ∀ (i : Int) (written : GoString), ∃ text, writeCases cases i written = .ok text := by
  induction cases with
  | nil => intro i written; exact ⟨written, rfl⟩
  | cons c cases ih =>
    intro i written
    obtain ⟨a, ha⟩ := cleverSolve_ok c (h c (List.mem_cons_self _ _))
    simp only [writeCases, ha]
    exact ih (fun x hx => h x (List.mem_cons_of_mem _ hx)) _ _

/-- C14: on every non-empty string `cleverSolve` and `modelSolve` return without
an index out of range, and at every state the run of `modelSolve` reaches, the
body of its loop runs without panic and calls `flip`, when it does, with
`0 <= pancakesToFlip <= len(pancakes)`; so for every batch `validateTestCases`
accepts, both solvers return on each case and the loop that writes the results
runs to its end. On the empty string both solvers panic with an index out of
range. -/
theorem solvers_index_safe :
    (∀ s : GoString, s ≠ [] →
      (∃ a, cleverSolve s = .ok a) ∧ (∃ b, modelSolve s = .ok b) ∧
      ∀ st, ModelReach s st →
        ∃ st' b, modelBody st = .ok (st', b) ∧
          (0 : Int) ≤ (st'.pancakesToFlip : Int) ∧
          (st'.pancakesToFlip : Int) ≤ (st.pancakes.length : Int) ∧
          (b = true → flip (st'.pancakesToFlip : Int) st.pancakes = .ok st'.pancakes)) ∧
    (∀ (n : Int) (cases : List GoString), validateTestCases n cases = (some cases, none) →
      (∀ c ∈ cases, (∃ a, cleverSolve c = .ok a) ∧ ∃ b, modelSolve c = .ok b) ∧
      ∃ text, writeCases cases 0 [] = .ok text) ∧
    cleverSolve [] = .error .indexOutOfRange ∧
    modelSolve [] = .error .indexOutOfRange := by
  refine ⟨?_, ?_, rfl, rfl⟩
  · intro s hne
    refine ⟨cleverSolve_ok s hne, modelSolve_ok s hne, ?_⟩
    intro st hreach
    obtain ⟨hlen, hp⟩ := reach_bounds s hne st hreach
    have hne' : st.pancakes ≠ [] := by
      intro e
      rw [e] at hlen
      exact hne (List.length_eq_zero.1 hlen.symm)
    obtain ⟨st', b, h1, _, h3, h4⟩ := modelBody_ok st hne' hp
    exact ⟨st', b, h1, by omega, by omega, h4⟩
  · intro n cases hvalid
    obtain ⟨_, _, hall⟩ := (rejected_iff n cases).1 (not_rejected_of_accepted n cases _ hvalid)
    have hne : ∀ c ∈ cases, c ≠ [] := fun c hc => (hall c hc).1
    exact ⟨fun c hc => ⟨cleverSolve_ok c (hne c hc), modelSolve_ok c (hne c hc)⟩,
      writeCases_ok cases hne 0 []⟩

theorem solvers_index_safe_witness :
    ((∃ a, cleverSolve [65, plus] = .ok a) ∧ (∃ b, modelSolve [65, plus] = .ok b) ∧
      ∀ st, ModelReach [65, plus] st →
        ∃ st' b, modelBody st = .ok (st', b) ∧
          (0 : Int) ≤ (st'.pancakesToFlip : Int) ∧
          (st'.pancakesToFlip : Int) ≤ (st.pancakes.length : Int) ∧
          (b = true → flip (st'.pancakesToFlip : Int) st.pancakes = .ok st'.pancakes)) ∧
    ((∀ c ∈ [[plus, minus], [minus]], (∃ a, cleverSolve c = .ok a) ∧ ∃ b, modelSolve c = .ok b) ∧
      ∃ text, writeCases [[plus, minus], [minus]] 0 [] = .ok text) :=
  ⟨solvers_index_safe.1 [65, plus] (by decide),
   solvers_index_safe.2.1 2 [[plus, minus], [minus]] (by decide)⟩

/-! ## One flip and the flip count -/

/-- C15: on a non-empty string of `+` and `-`, a prefix flip of `k` symbols,
`1 <= k <= len(s)`, changes the value of `cleverSolve` by exactly one, up or
down; `flip(0, s)` leaves it unchanged. -/
theorem cleverSolve_flip_step (s : GoString) (hne : s ≠ []) (hs : IsPancakes s) (k : Int)
    (h1 : 1 ≤ k) (hk : k ≤ s.length) :
    (∃ t a b, flip k s = .ok t ∧ cleverSolve s = .ok a ∧ cleverSolve t = .ok b ∧
      (b = a + 1 ∨ b = a - 1)) ∧
    (∃ t a, flip 0 s = .ok t ∧ cleverSolve s = .ok a ∧ cleverSolve t = .ok a) := by
  obtain ⟨m, rfl⟩ := Int.eq_ofNat_of_zero_le (by omega : 0 ≤ k)
  have hm : m ≤ s.length := by omega
  have hne' : flipList m s ≠ [] := by
    intro e
    have := length_flipList m s
    rw [e] at this
    exact hne (List.length_eq_zero.1 this.symm)
  refine ⟨⟨flipList m s, flipCount s, flipCount (flipList m s), flip_eq_ok m s hm,
    cleverSolve_eq_flipCount s hne hs,
    cleverSolve_eq_flipCount _ hne' (hs.flipList m), ?_⟩,
    ⟨s, flipCount s, flip_nonpos 0 s (le_refl _), cleverSolve_eq_flipCount s hne hs,
      cleverSolve_eq_flipCount s hne hs⟩⟩
  have h := changes_flipList (s ++ [plus]) m hs.append_plus (by omega) (by simp; omega)
  rw [flipList_append_of_le m s [plus] hm] at h
  unfold flipCount
  split at h
  · left; omega
  · right; omega

theorem cleverSolve_flip_step_witness :
    (∃ t a b, flip 3 [minus, minus, minus, plus, plus, minus] = .ok t ∧
      cleverSolve [minus, minus, minus, plus, plus, minus] = .ok a ∧ cleverSolve t = .ok b ∧
      (b = a + 1 ∨ b = a - 1)) ∧
    (∃ t a, flip 0 [minus, minus, minus, plus, plus, minus] = .ok t ∧
      cleverSolve [minus, minus, minus, plus, plus, minus] = .ok a ∧ cleverSolve t = .ok a) :=
  cleverSolve_flip_step [minus, minus, minus, plus, plus, minus] (by decide) (by decide) 3
    (by decide) (by decide)

/-! ## Flips compose -/

theorem invert_invert {a : UInt8} (ha : a = plus ∨ a = minus) : invert (invert a) = a := by
  rcases ha with rfl | rfl <;> rfl

theorem flipList_flipList_self (s : GoString) : ∀ (k : Nat), IsPancakes s →
    flipList k (flipList k s) = s := by
  induction s with
  | nil => intro k _; simp
  | cons a s ih =>
    intro k hs
    cases k with
    | zero => simp
    | succ k => simp [ih k hs.tail, invert_invert hs.head]

theorem flipList_comm (s : GoString) : ∀ (j k : Nat),
    flipList j (flipList k s) = flipList k (flipList j s) := by
  induction s with
  | nil => intro j k; simp
  | cons a s ih =>
    intro j k
    cases j with
    | zero => simp
    | succ j =>
      cases k with
      | zero => simp
      | succ k => simp [ih j k]

/-- C17: on a string of `+` and `-`, with `0 <= j, k <= len(s)`, flipping the
same prefix twice gives the string back and two prefix flips give the same
string in either order; on any string, a byte other than `+` and `-` among the
first `k` is not restored by flipping that prefix twice. -/
theorem flip_involution_commute (s : GoString) (j k : Int)
    (hj0 : 0 ≤ j) (hj : j ≤ s.length) (hk0 : 0 ≤ k) (hk : k ≤ s.length) :
    (IsPancakes s →
      (∃ t, flip k s = .ok t ∧ flip k t = .ok s) ∧
      (∃ t u v, flip k s = .ok t ∧ flip j s = .ok u ∧ flip j t = .ok v ∧ flip k u = .ok v)) ∧
    (∀ (i : Nat) (b : UInt8), (i : Int) < k → s[i]? = some b → b ≠ plus → b ≠ minus →
      ∃ t u, flip k s = .ok t ∧ flip k t = .ok u ∧ u ≠ s) := by
  obtain ⟨m, rfl⟩ := Int.eq_ofNat_of_zero_le hk0
  obtain ⟨n, rfl⟩ := Int.eq_ofNat_of_zero_le hj0
  have hm : m ≤ s.length := by omega
  have hn : n ≤ s.length := by omega
  have hm' : m ≤ (flipList m s).length := by rw [length_flipList]; exact hm
  refine ⟨?_, ?_⟩
  · intro hs
    refine ⟨⟨flipList m s, flip_eq_ok m s hm, ?_⟩,
      ⟨flipList m s, flipList n s, flipList n (flipList m s), flip_eq_ok m s hm,
        flip_eq_ok n s hn, flip_eq_ok n _ (by rw [length_flipList]; exact hn), ?_⟩⟩
    · rw [flip_eq_ok m _ hm', flipList_flipList_self s m hs]
    · rw [flip_eq_ok m _ (by rw [length_flipList]; exact hm), flipList_comm]
  · intro i b hi hb h1 h2
    refine ⟨flipList m s, flipList m (flipList m s), flip_eq_ok m s hm, flip_eq_ok m _ hm', ?_⟩
    intro e
    have hi' : i < m := by omega
    have hget : (flipList m (flipList m s))[i]? = some minus := by
      rw [getElem?_flipList, if_pos hi', getElem?_flipList, if_pos hi', hb]
      simp [invert, h1]
    rw [e, hb] at hget
    exact h2 (Option.some.inj hget)

theorem flip_involution_commute_witness :
    ((∃ t, flip 4 [minus, minus, minus, plus, plus, minus] = .ok t ∧
        flip 4 t = .ok [minus, minus, minus, plus, plus, minus]) ∧
      (∃ t u v, flip 4 [minus, minus, minus, plus, plus, minus] = .ok t ∧
        flip 2 [minus, minus, minus, plus, plus, minus] = .ok u ∧
        flip 2 t = .ok v ∧ flip 4 u = .ok v)) ∧
    (∃ t u, flip 2 [plus, 65, plus] = .ok t ∧ flip 2 t = .ok u ∧ u ≠ [plus, 65, plus]) :=
  ⟨(flip_involution_commute [minus, minus, minus, plus, plus, minus] 2 4 (by decide)
      (by decide) (by decide) (by decide)).1 (by decide),
   (flip_involution_commute [plus, 65, plus] 0 2 (by decide) (by decide) (by decide)
      (by decide)).2 1 65 (by decide) (by decide) (by decide) (by decide)⟩

/-! ## Beyond the cap -/

/-- The outer loop of `modelSolve` with no more iterations left than the string
has boundaries: every iteration flips, so the loop stops at the cap, after `n`
flips, with `n` boundaries fewer and the first symbol inverted `n` times. -/
theorem modelOuter_capped (n : Nat) : ∀ (p : Nat) (c : UInt8) (t : GoString) (f : Int)
    (lc : Nat), IsPancakes (c :: t) → n ≤ changes (c :: t) →
    ∃ st, modelOuter n ⟨List.replicate p c ++ c :: t, p, f, lc⟩ = .ok st ∧
      st.numOfFlips = f + (n : Int) ∧ st.loopCount = lc + n ∧
      st.pancakes[0]? = some (invert^[n] c) ∧
      changes st.pancakes + n = changes (c :: t) := by
  induction n with
  | zero =>
    intro p c t f lc _ _
    refine ⟨_, rfl, by simp, rfl, ?_, by simp [changes_replicate_append]⟩
    cases p <;> simp [List.replicate_succ]
  | succ n ih =>
    intro p c t f lc hp hn
    obtain ⟨a, u, rfl, hu⟩ := exists_run c t
    rw [changes_run] at hn ⊢
    rcases hu with rfl | ⟨d, v, rfl, hd⟩
    · simp [changes] at hn
    · have hd' : d = plus ∨ d = minus := hp d (by simp)
      have hpv : IsPancakes (d :: v) := fun b hb => hp b (by
        rcases List.mem_cons.1 hb with rfl | hb <;> simp [*])
      have hch : changes (c :: d :: v) = changes (d :: v) + 1 := by
        rw [changes_cons_cons]; simp [hd]; omega
      rw [hch] at hn ⊢
      obtain ⟨st, h1, h2, h3, h4, h5⟩ := ih (p + (a + 1)) d v (f + 1) (lc + 1) hpv (by omega)
      rw [modelOuter_succ, modelBody_flip p a c d v f lc hp.head hd' hd]
      refine ⟨st, h1, ?_, by omega, ?_, by omega⟩
      · rw [h2]; push_cast; ring
      · rw [h4, Function.iterate_succ_apply, invert_of_ne hp.head hd' hd]

theorem changes_alternating (n : Nat) : ∀ c : UInt8, changes (alternating c (n + 1)) = n := by
  induction n with
  | zero => intro c; rfl
  | succ n ih =>
    intro c
    have h := ih (invert c)
    simp only [alternating] at h ⊢
    rw [changes_cons_cons, h]
    have : invert c ≠ c := by
      unfold invert; split
      · rename_i e; rw [e]; decide
      · rename_i e; exact fun h => e h.symm
    simp [this]; omega

theorem isPancakes_alternating (n : Nat) : ∀ c : UInt8, c = plus ∨ c = minus →
    IsPancakes (alternating c n) := by
  induction n with
  | zero => intro c _ b hb; simp [alternating] at hb
  | succ n ih =>
    intro c hc b hb
    simp only [alternating, List.mem_cons] at hb
    rcases hb with rfl | hb
    · exact hc
    · exact ih (invert c) (invert_isPancake c) b hb

theorem length_alternating (n : Nat) : ∀ c : UInt8, (alternating c n).length = n := by
  induction n with
  | zero => intro c; rfl
  | succ n ih => intro c; simp [alternating, ih]

/-- C16: on the alternating string of 102 symbols that starts with `+` (a string
of `+` and `-` with 101 boundaries, ending in `-`, which `validateTestCases`
rejects for its length) `cleverSolve` returns 102 and `modelSolve` returns 100:
its loop stops at the cap of 100 iterations, after 100 flips, on a string that
still has a boundary. -/
theorem solvers_disagree_beyond_cap :
    (alternating plus 102).length = 102 ∧ (alternating plus 102).head? = some plus ∧
    (alternating plus 102).getLast? = some minus ∧
    IsPancakes (alternating plus 102) ∧ boundaryCount (alternating plus 102) = 101 ∧
    validateTestCases 1 [alternating plus 102] = (none, some (.testCaseTooLong 100 102)) ∧
    cleverSolve (alternating plus 102) = .ok 102 ∧
    modelSolve (alternating plus 102) = .ok 100 ∧
    ∃ st, modelOuter MAX_TEST_CASE_SIZE (modelStart (alternating plus 102)) = .ok st ∧
      st.loopCount = MAX_TEST_CASE_SIZE ∧ st.numOfFlips = 100 ∧
      boundaryCount st.pancakes = 1 ∧ ¬ Uniform st.pancakes := by
  have hp : IsPancakes (alternating plus 102) := isPancakes_alternating 102 plus (Or.inl rfl)
  have hch : changes (alternating plus 102) = 101 := changes_alternating 101 plus
  have hlast : (alternating plus 102).getLast? = some minus := by
    set_option maxRecDepth 100000 in decide
  have hne : alternating plus 102 ≠ [] := by
    intro e; have := length_alternating 102 plus; rw [e] at this; simp at this
  have hclever : cleverSolve (alternating plus 102) = .ok 102 := by
    obtain ⟨pre, a, hpa⟩ : ∃ pre a, alternating plus 102 = pre ++ [a] := by
      rcases List.eq_nil_or_concat (alternating plus 102) with h | ⟨pre, a, h⟩
      · exact absurd h hne
      · exact ⟨pre, a, by rw [h, List.concat_eq_append]⟩
    have ha : a = minus := by
      rw [hpa] at hlast; simpa using hlast
    rw [hpa, cleverSolve_concat, ← hpa, hch, ha]
    rfl
  obtain ⟨st, h1, h2, h3, h4, h5⟩ := modelOuter_capped MAX_TEST_CASE_SIZE 0 plus
    (alternating minus 101) 0 0 hp (by
      have : changes (plus :: alternating minus 101) = 101 := hch
      rw [this]; decide)
  have h1' : modelOuter MAX_TEST_CASE_SIZE (modelStart (alternating plus 102)) = .ok st := h1
  have h5' : changes st.pancakes = 1 := by
    have : changes (plus :: alternating minus 101) = 101 := hch
    rw [this] at h5
    simp only [MAX_TEST_CASE_SIZE] at h5
    omega
  have hfirst : invert^[MAX_TEST_CASE_SIZE] plus = plus := by
    set_option maxRecDepth 100000 in decide
  refine ⟨length_alternating 102 plus, rfl, hlast, hp, by rw [← changes_eq_boundaryCount, hch],
    rfl, hclever, ?_, st, h1', by simpa using h3, by simpa [MAX_TEST_CASE_SIZE] using h2,
    by rw [← changes_eq_boundaryCount, h5'], ?_⟩
  · rw [hfirst] at h4
    obtain ⟨b, l, hbl⟩ : ∃ b l, st.pancakes = b :: l := by
      cases hst : st.pancakes with
      | nil => rw [hst] at h4; simp at h4
      | cons b l => exact ⟨b, l, rfl⟩
    have hidx : index st.pancakes 0 = .ok plus := by
      rw [hbl] at h4 ⊢
      simp only [List.getElem?_cons_zero, Option.some.injEq] at h4
      simp [index, h4]
    rw [modelSolve_eq_modelStart]
    simp only [h1', hidx, h2]
    simp [MAX_TEST_CASE_SIZE, plus_ne_minus]
  · intro hu
    have := changes_eq_zero_of_uniform _ hu
    omega

/-! ## The size of the flip count -/

theorem invert_ne_self (c : UInt8) : invert c ≠ c := by
  unfold invert; split
  · rename_i e; rw [e]; decide
  · rename_i e; exact fun h => e h.symm

theorem changes_alternatingTo (n : Nat) : ∀ c : UInt8, changes (alternatingTo c (n + 1)) = n := by
  induction n with
  | zero => intro c; rfl
  | succ n ih =>
    intro c
    have h := ih (invert c)
    simp only [alternatingTo, List.append_assoc, List.singleton_append] at h ⊢
    rw [changes_concat, h]
    have : c ≠ invert c := fun e => invert_ne_self c e.symm
    simp [this]

theorem length_alternatingTo (n : Nat) : ∀ c : UInt8, (alternatingTo c n).length = n := by
  induction n with
  | zero => intro c; rfl
  | succ n ih => intro c; simp [alternatingTo, ih]

theorem isPancakes_alternatingTo (n : Nat) : ∀ c : UInt8, c = plus ∨ c = minus →
    IsPancakes (alternatingTo c n) := by
  induction n with
  | zero => intro c _ b hb; simp [alternatingTo] at hb
  | succ n ih =>
    intro c hc b hb
    simp only [alternatingTo, List.mem_append, List.mem_singleton] at hb
    rcases hb with hb | rfl
    · exact ih (invert c) (invert_isPancake c) b hb
    · exact hc

theorem cleverSolve_le_length (s : GoString) (hne : s ≠ []) :
    ∃ a : Int, cleverSolve s = .ok a ∧ 0 ≤ a ∧ a ≤ s.length := by
  rcases List.eq_nil_or_concat s with h | ⟨pre, a, rfl⟩
  · exact absurd h hne
  · rw [List.concat_eq_append]
    refine ⟨_, cleverSolve_concat pre a, ?_, ?_⟩
    · split <;> omega
    · have hle : changes (pre ++ [a]) + 1 ≤ (pre ++ [a]).length := by
        cases pre with
        | nil => simp [changes]
        | cons c pre =>
          have := changes_le c (pre ++ [a])
          simp only [List.cons_append, List.length_cons] at this ⊢
          omega
      split <;> omega

/-- C18: on every non-empty string `cleverSolve` returns at most the length of
the string, so every case of a batch `validateTestCases` accepts gets a count
from 0 to 100; the bound is reached: for every `n >= 1` the alternating string
of `n` symbols that ends in `-` (its `n - 1` adjacent pairs all boundaries)
has the count `n`. -/
theorem cleverSolve_bound_attained :
    (∀ s : GoString, s ≠ [] → ∃ a : Int, cleverSolve s = .ok a ∧ a ≤ s.length) ∧
    (∀ (n : Int) (cases : List GoString), validateTestCases n cases = (some cases, none) →
      ∀ c ∈ cases, ∃ a : Int, cleverSolve c = .ok a ∧ 0 ≤ a ∧ a ≤ 100) ∧
    (∀ n : Nat, 1 ≤ n →
      (alternatingTo minus n).length = n ∧ (alternatingTo minus n).getLast? = some minus ∧
      IsPancakes (alternatingTo minus n) ∧ boundaryCount (alternatingTo minus n) + 1 = n ∧
      cleverSolve (alternatingTo minus n) = .ok (n : Int)) := by
  refine ⟨?_, ?_, ?_⟩
  · intro s hne
    obtain ⟨a, h1, _, h3⟩ := cleverSolve_le_length s hne
    exact ⟨a, h1, h3⟩
  · intro n cases hvalid c hc
    obtain ⟨_, _, hall⟩ := (rejected_iff n cases).1 (not_rejected_of_accepted n cases _ hvalid)
    obtain ⟨hne, hlen, _⟩ := hall c hc
    obtain ⟨a, h1, h2, h3⟩ := cleverSolve_le_length c hne
    exact ⟨a, h1, h2, by omega⟩
  · intro n hn
    obtain ⟨m, rfl⟩ : ∃ m, n = m + 1 := ⟨n - 1, by omega⟩
    have hch := changes_alternatingTo m minus
    refine ⟨length_alternatingTo _ _, by simp [alternatingTo],
      isPancakes_alternatingTo _ _ (Or.inr rfl), by rw [← changes_eq_boundaryCount, hch], ?_⟩
    have e : alternatingTo minus (m + 1) = alternatingTo (invert minus) m ++ [minus] := rfl
    rw [e, cleverSolve_concat, ← e, hch]
    simp

theorem cleverSolve_bound_attained_witness :
    (∃ a : Int, cleverSolve [65, minus, 66, minus] = .ok a
      ∧ a ≤ ([65, minus, 66, minus] : GoString).length) ∧
    (∀ c ∈ [[plus, minus], [minus]], ∃ a : Int, cleverSolve c = .ok a ∧ 0 ≤ a ∧ a ≤ 100) ∧
    ((alternatingTo minus 100).length = 100 ∧
      (alternatingTo minus 100).getLast? = some minus ∧
      IsPancakes (alternatingTo minus 100) ∧ boundaryCount (alternatingTo minus 100) + 1 = 100 ∧
      cleverSolve (alternatingTo minus 100) = .ok ((100 : Nat) : Int)) :=
  ⟨cleverSolve_bound_attained.1 [65, minus, 66, minus] (by decide),
   cleverSolve_bound_attained.2.1 2 [[plus, minus], [minus]] (by decide),
   cleverSolve_bound_attained.2.2 100 (by decide)⟩

end PancakeRevenge
